import Mathlib

/-!
Shallow embedding of the write-path core of the Loki repository
(`pkg/distributor/distributor.go` and `clients/pkg/promtail/wal/watcher.go`),
together with proofs checking the natural-language specification against it.

Conventions of the embedding:
* Go `time.Time` values are modelled as `Int` nanoseconds (Go time has
  nanosecond granularity; `t.Add(1*time.Nanosecond)` is `t + 1` and
  `t1.Before(t2)` is `t1 < t2`).
* Go byte strings (log lines) are modelled as `List Nat` (one `Nat` per byte),
  so `len` is `List.length`, slicing is `List.take`, and `==` is list equality.
* External capabilities (the ingester ring, the RPC pool, the per-tenant
  validator, the label parser and the stream sharder) are injected as function
  parameters, mirroring the interfaces the Go code consumes.
* Stateful loops become structural recursion / folds; goroutine interleavings
  of the quorum tracker become an explicit event list (the Go code coordinates
  exclusively through atomic counters, whose operations linearize, so every
  concurrent execution corresponds to some sequential event order).
-/

/-- Decidable equality for `Except`, used to evaluate the models' results on
concrete inputs. -/
instance {ε : Type u} {α : Type v} [DecidableEq ε] [DecidableEq α] :
    DecidableEq (Except ε α)
  | .error e, .error f =>
    if h : e = f then .isTrue (by rw [h])
    else .isFalse (fun hc => h (Except.error.inj hc))
  | .error _, .ok _ => .isFalse (fun hc => Except.noConfusion hc)
  | .ok _, .error _ => .isFalse (fun hc => Except.noConfusion hc)
  | .ok a, .ok b =>
    if h : a = b then .isTrue (by rw [h])
    else .isFalse (fun hc => h (Except.ok.inj hc))

namespace Loki

/-! ## Distributor data model (`pkg/distributor/distributor.go`) -/

/-- One log entry: `logproto.Entry` (a timestamp plus a line of bytes). -/
structure Entry where
  timestamp : Int
  line : List Nat
deriving Repr, DecidableEq

/-- One log stream: `logproto.Stream` (label-set string, entries, hash). -/
structure Stream where
  labels : String
  entries : List Entry
  hash : Nat
deriving Repr, DecidableEq

/-- Validation error; stands for the `error` values produced by the validator
and the label parser (only identity matters to the claims). -/
structure VErr where
  code : Nat
deriving Repr, DecidableEq

/-- Push-level error, as returned by `Distributor.Push`.
`rateLimited` mirrors `httpgrpc.Errorf(http.StatusTooManyRequests,
validation.RateLimitedErrorMsg, userID, limit, validatedSamplesCount,
validatedSamplesSize)`; `ringErr` stands for an error from `ring.Get`. -/
inductive PushErr where
  | validation (e : VErr)
  | rateLimited (limit : Int) (count : Nat) (size : Nat)
  | ringErr
deriving Repr, DecidableEq

/-- HTTP status class carried by a push error (`http.StatusTooManyRequests`
is 429, invalid input is 400). -/
def pushErrStatus : PushErr → Nat
  | .validation _ => 400
  | .rateLimited _ _ _ => 429
  | .ringErr => 500

/-- The fields of `validationContext` used by `validateStreams`. -/
structure VCtx where
  incrementDuplicateTimestamps : Bool
  maxLineSizeTruncate : Bool
  maxLineSize : Nat
deriving Repr, DecidableEq

/-- Injected capabilities of the distributor, mirroring the interfaces consumed
by `Distributor.Push` (validator, label parser/cache, rate limiter, sharder,
ring token computation).  `parseStreamLabels` folds `syntax.ParseLabels`,
`ValidateLabels` and the label cache into one deterministic function from the
raw label string to the canonical one; `shardFn` stands for
`Distributor.shardStream` (whose float64 entry-bounds computation is outside
this embedding, see the notes on `boundsFor`). -/
structure DistEnv where
  vctx : VCtx
  parseStreamLabels : String → Except VErr String
  validateEntry : String → Entry → Option VErr
  allowN : Nat → Bool
  limit : Int
  tokenFor : String → Nat
  shardEnabled : Bool
  shardFn : Stream → List Nat × List Stream

/-- Model of `maxT`: returns the highest of two timestamps
(`if t1.Before(t2) { return t2 }; return t1`). -/
def maxT (t1 t2 : Int) : Int :=
  if t1 < t2 then t2 else t1

/-- Model of `Distributor.truncateLines`: when the tenant opts into
truncation and `maxLineSize` is nonzero, lines longer than `maxLineSize` are
cut to `maxLineSize` bytes.  (The metric counters are dropped.) -/
def truncateLines (ctx : VCtx) (s : Stream) : Stream :=
  if ctx.maxLineSizeTruncate then
    { s with entries := s.entries.map fun e =>
        if ctx.maxLineSize ≠ 0 ∧ ctx.maxLineSize < e.line.length then
          { e with line := e.line.take ctx.maxLineSize }
        else e }
  else s

/-- The duplicate-timestamp adjustment applied to a kept entry inside the
entry loop of `validateStreams` (lines 324-331): with incrementing enabled and
a previously kept entry `p`, an entry whose line differs from `p`'s gets
timestamp `maxT(entry.Timestamp, p.Timestamp.Add(1*time.Nanosecond))`. -/
def bumpE (inc : Bool) (prev : Option Entry) (e : Entry) : Entry :=
  match prev with
  | none => e
  | some p =>
    if inc ∧ p.line ≠ e.line then
      { e with timestamp := maxT e.timestamp (p.timestamp + 1) }
    else e

/-- Result accumulated by the per-stream entry loop of `validateStreams`:
the kept (possibly timestamp-bumped) entries, the last validation error, the
validated byte size and sample count contributed by this stream. -/
structure EntryLoopRes where
  kept : List Entry
  err : Option VErr
  size : Nat
  count : Nat
deriving Repr, DecidableEq

/-- Combines the running `validationErr` across two pieces of iteration: the
Go code overwrites `validationErr` at each error, so an error observed in the
later piece shadows the earlier one. -/
def overrideErr (earlier later : Option VErr) : Option VErr :=
  match later with
  | some x => some x
  | none => earlier

/-- Model of the entry loop of `validateStreams` (lines 312-337): each entry
is validated (failures set `validationErr` and are skipped), kept entries are
timestamp-adjusted against the previously kept entry via `bumpE`, and the
validated byte/sample totals are accumulated.  `prev` is the previously kept
entry (`stream.Entries[n-1]`), i.e. `none` exactly when `n == 0`. -/
def entryLoop (f : Entry → Option VErr) (inc : Bool) :
    Option Entry → List Entry → EntryLoopRes
  | _, [] => ⟨[], none, 0, 0⟩
  | prev, e :: rest =>
    match f e with
    | some err =>
      let r := entryLoop f inc prev rest
      ⟨r.kept, overrideErr (some err) r.err, r.size, r.count⟩
    | none =>
      let e' := bumpE inc prev e
      let r := entryLoop f inc (some e') rest
      ⟨e' :: r.kept, r.err, r.size + e.line.length, r.count + 1⟩

/-- Accumulator of the stream loop of `validateStreams`: hash keys, valid
stream trackers (only the stream itself matters before `pushStreams` fills the
quorum fields), last validation error, validated totals. -/
structure VAcc where
  keys : List Nat
  streams : List Stream
  verr : Option VErr
  size : Nat
  count : Nat
deriving Repr

/-- Model of the per-stream loop of `validateStreams` (lines 290-348):
streams without entries are skipped; lines are truncated; the label string is
parsed (failure discards the whole stream and records the error); the entry
loop runs; the stream is either sharded (`shardFn`) or paired with its ring
token.  Accumulation across streams keeps the last error seen. -/
def validateLoop (env : DistEnv) : List Stream → VAcc
  | [] => ⟨[], [], none, 0, 0⟩
  | s :: rest =>
    let hd : VAcc :=
      if s.entries.isEmpty then ⟨[], [], none, 0, 0⟩
      else
        let s1 := truncateLines env.vctx s
        match env.parseStreamLabels s1.labels with
        | .error e => ⟨[], [], some e, 0, 0⟩
        | .ok lbls =>
          let r := entryLoop (env.validateEntry lbls)
            env.vctx.incrementDuplicateTimestamps none s1.entries
          let s2 : Stream := { labels := lbls, entries := r.kept, hash := s1.hash }
          let ks := if env.shardEnabled then (env.shardFn s2).1 else [env.tokenFor lbls]
          let vs := if env.shardEnabled then (env.shardFn s2).2 else [s2]
          ⟨ks, vs, r.err, r.size, r.count⟩
    let tl := validateLoop env rest
    ⟨hd.keys ++ tl.keys, hd.streams ++ tl.streams, overrideErr hd.verr tl.verr,
     hd.size + tl.size, hd.count + tl.count⟩

/-- Result of `Distributor.validateStreams`: either the whole batch is
rejected with a 429 payload (the `ok = false` return of line 360), or the
validated keys/streams and last validation error are produced. -/
inductive VOut where
  | rejected (limit : Int) (count : Nat) (size : Nat)
  | accepted (keys : List Nat) (streams : List Stream) (verr : Option VErr)
deriving Repr

/-- Model of `Distributor.validateStreams` (lines 278-364): run the stream
loop; if no valid stream remains, return early with `ok = true`; otherwise
consult the rate limiter with the total validated byte size and reject the
entire batch with the tenant's limit, the validated sample count and byte size
when `AllowN` refuses. -/
def validateStreams (env : DistEnv) (streams : List Stream) : VOut :=
  let a := validateLoop env streams
  if a.streams = [] then .accepted a.keys a.streams a.verr
  else if env.allowN a.size then .accepted a.keys a.streams a.verr
  else .rejected env.limit a.count a.size

/-- Outcome of `Distributor.Push` up to (and excluding) the final
`select` on the tracker channels: an error return, an empty success response
(`&logproto.PushResponse{}` paired with the last validation error), or the
invocation of `pushStreams` with the validated keys and streams (which is the
only path performing ring lookups and replica RPCs). -/
inductive PushResult where
  | err (e : PushErr)
  | emptyOk (verr : Option VErr)
  | forwarded (keys : List Nat) (streams : List Stream) (verr : Option VErr)
deriving Repr

/-- Model of `Distributor.Push` (lines 243-266): empty requests short-circuit
with an empty response; a rate-limit rejection from `validateStreams` is
returned as the push error; an empty validated batch returns the empty
response with the last validation error; otherwise the batch is handed to
`pushStreams`. -/
def Push (env : DistEnv) (streams : List Stream) : PushResult :=
  if streams = [] then .emptyOk none
  else
    match validateStreams env streams with
    | .rejected l c s => .err (.rateLimited l c s)
    | .accepted keys vstreams verr =>
      if vstreams = [] then .emptyOk verr
      else .forwarded keys vstreams verr

/-! ## Replica fan-out: `pushStreams` (lines 366-406) -/

/-- Replication set returned by `ring.Get` for one hash key: the instance
addresses and the ring's error tolerance (`replicationSet.MaxErrors`). -/
structure ReplicationSet where
  instances : List String
  maxErrors : Int
deriving Repr, DecidableEq

/-- Per-stream quorum tracker as filled in by `pushStreams`
(lines 378-379): `minSuccess = len(replicationSet.Instances) - MaxErrors`
and `maxFailures = MaxErrors`. -/
structure STrack where
  stream : Stream
  minSuccess : Int
  maxFailures : Int
deriving Repr, DecidableEq

/-- Model of the ring-lookup loop of `pushStreams` (lines 372-384): for each
(key, stream) pair in order, look up the replication set (any ring error
aborts the whole push) and record the tracker's quorum parameters together
with the replication set that produced them. -/
def pushStreamsLoop (ringGet : Nat → Except PushErr ReplicationSet) :
    List (Nat × Stream) → Except PushErr (List (STrack × ReplicationSet))
  | [] => .ok []
  | (k, s) :: rest =>
    match ringGet k with
    | .error e => .error e
    | .ok rs =>
      match pushStreamsLoop ringGet rest with
      | .error e => .error e
      | .ok tl =>
        .ok ((⟨s, (rs.instances.length : Int) - rs.maxErrors, rs.maxErrors⟩, rs) :: tl)

/-- Grouping of stream indices by ingester address
(`samplesByIngester`, lines 380-383), as an insertion-ordered association
list (Go map iteration order is irrelevant to the claims). -/
def samplesByIngester (l : List (STrack × ReplicationSet)) : List (String × List Nat) :=
  (l.enum.foldl (fun acc p =>
      p.2.2.instances.foldl (fun acc2 addr =>
          match acc2.find? (fun q => q.1 = addr) with
          | some _ => acc2.map fun q => if q.1 = addr then (q.1, q.2 ++ [p.1]) else q
          | none => acc2 ++ [(addr, [p.1])]) acc)
    [])

/-! ## Stream sharding: `boundsFor` (lines 483-498) in exact binary64

`boundsFor` computes shard windows in Go `float64` arithmetic.  Go mandates
correctly rounded IEEE-754 binary64 for the conversions `float64(int)` and for
`/`, `*`, `+` (round to nearest, ties to even), and no fused multiply-add
pattern occurs in `boundsFor`, so the computation is a deterministic function
on dyadic rationals.  It is modelled here exactly, over `ℕ`/`ℤ` only: a float
value is an integer mantissa times a power of two, each operation computes the
exact rational result and rounds it.  The model covers the domain `boundsFor`
is actually called on — non-negative ints below 2^63, `totalShards ≥ 1` (the
caller `shardStream` requires `shardCount > 1`) — on which no division by
zero, negative value, infinity or NaN can arise (all intermediate values stay
far below the binary64 overflow threshold 2^1024). -/

/-- Fuel-bounded floor of log₂ (structural recursion so the kernel can
evaluate it; 1300 units of fuel cover every magnitude a binary64 value can
take, exponents lying in [-1074, 1024]). -/
def log2Fuel : ℕ → ℕ → ℕ
  | 0, _ => 0
  | fuel + 1, n => if n ≤ 1 then 0 else log2Fuel fuel (n / 2) + 1

/-- Floor of log₂ of a natural number (`natLog2 n = ⌊log₂ n⌋` for `1 ≤ n`). -/
def natLog2 (n : ℕ) : ℕ := log2Fuel 1300 n

/-- Floor of log₂ of the positive rational `n / d`: the candidate
`⌊log₂ n⌋ - ⌊log₂ d⌋` is off by at most one, and the cross-multiplied
comparison `2 ^ (⌊log₂ n⌋ - ⌊log₂ d⌋) ≤ n / d` decides which. -/
def natLog2Frac (n d : ℕ) : ℤ :=
  let ln := natLog2 n
  let ld := natLog2 d
  if d * 2 ^ ln ≤ n * 2 ^ ld then (ln : ℤ) - ld else (ln : ℤ) - ld - 1

/-- Round the non-negative rational `x / y` to the nearest integer, ties to
even — the IEEE-754 default rounding applied on an integer grid. -/
def rheNat (x y : ℕ) : ℕ :=
  let q := x / y
  let r := x % y
  if 2 * r < y then q
  else if y < 2 * r then q + 1
  else if q % 2 = 0 then q else q + 1

/-- A non-negative binary64 value, as the exact dyadic `m * 2 ^ e` produced
by rounding (not normalized; `e` is the exponent of the rounding grid). -/
structure F64 where
  m : ℕ
  e : ℤ
deriving Repr, DecidableEq

/-- Correctly round the positive rational `n / d` (with `1 ≤ n`, `1 ≤ d`) to
binary64: place it in its binade `[2 ^ ebin, 2 ^ (ebin + 1))`, whose
representable values are the multiples of `2 ^ g` with `g = ebin - 52`
(clamped to the subnormal grid `2 ^ -1074`), and round onto that grid to
nearest, ties to even.  A carry to `2 ^ (ebin + 1)` lands on a representable
value, so the result is always the correctly rounded binary64 value. -/
def roundPosRat (n d : ℕ) : F64 :=
  let ebin := natLog2Frac n d
  let g : ℤ := max (ebin - 52) (-1074)
  if g ≤ 0 then ⟨rheNat (n * 2 ^ (-g).toNat) d, g⟩
  else ⟨rheNat n (d * 2 ^ g.toNat), g⟩

/-- Go's `float64(n)` conversion of a non-negative int: correctly rounded
(exact below 2^53). -/
def flOfNat (n : ℕ) : F64 :=
  if n = 0 then ⟨0, 0⟩ else roundPosRat n 1

/-- The exact value of a binary64 model value, as a fraction `(num, den)`. -/
def f64Frac (x : F64) : ℕ × ℕ :=
  if 0 ≤ x.e then (x.m * 2 ^ x.e.toNat, 1) else (x.m, 2 ^ (-x.e).toNat)

/-- Binary64 multiplication: the exact product, rounded once. -/
def flMul (x y : F64) : F64 :=
  let p := f64Frac x
  let q := f64Frac y
  if p.1 * q.1 = 0 then ⟨0, 0⟩ else roundPosRat (p.1 * q.1) (p.2 * q.2)

/-- Binary64 addition: the exact sum, rounded once. -/
def flAdd (x y : F64) : F64 :=
  let p := f64Frac x
  let q := f64Frac y
  if p.1 * q.2 + q.1 * p.2 = 0 then ⟨0, 0⟩
  else roundPosRat (p.1 * q.2 + q.1 * p.2) (p.2 * q.2)

/-- Binary64 division (non-zero divisor): the exact quotient, rounded once. -/
def flDiv (x y : F64) : F64 :=
  let p := f64Frac x
  let q := f64Frac y
  if p.1 = 0 then ⟨0, 0⟩ else roundPosRat (p.1 * q.2) (p.2 * q.1)

/-- Go's `int(f)` conversion of a non-negative float64: truncation toward
zero, which for non-negative values is the floor. -/
def f64Trunc (x : F64) : ℕ :=
  if 0 ≤ x.e then x.m * 2 ^ x.e.toNat else x.m / 2 ^ (-x.e).toNat

/-- Model of `Distributor.boundsFor` (lines 483-498):
`entriesPerWindow := float64(len(stream.Entries)) / float64(totalShards)`,
`lowerBound := int(fIdx * entriesPerWindow)`,
`upperBound := min(int(entriesPerWindow*(1+fIdx)), len(stream.Entries))`;
inverted bounds (`lowerBound > upperBound`) make the shard dropped
(`ok = false`), mirroring lines 490-495. -/
def boundsFor (entriesLen totalShards shardNumber : ℕ) : ℕ × ℕ × Bool :=
  let entriesPerWindow := flDiv (flOfNat entriesLen) (flOfNat totalShards)
  let fIdx := flOfNat shardNumber
  let lowerBound := f64Trunc (flMul fIdx entriesPerWindow)
  let upperBound :=
    min (f64Trunc (flMul entriesPerWindow (flAdd (flOfNat 1) fIdx))) entriesLen
  if lowerBound > upperBound then (0, 0, false) else (lowerBound, upperBound, true)

/-- Entry slice taken by `Distributor.createShard` (line 479,
`stream.Entries[lowerBound:upperBound]`), `none` when `boundsFor` dropped the
shard.  Labels and hash of the derived stream are irrelevant to the entry
partition and are not modelled. -/
def createShardEntries (entries : List Entry) (totalShards shardNumber : ℕ) :
    Option (List Entry) :=
  match boundsFor entries.length totalShards shardNumber with
  | (lo, hi, true) => some ((entries.take hi).drop lo)
  | (_, _, false) => none

/-- Entry slices of the derived streams produced by the shard loop of
`Distributor.shardStream` (lines 433-445): shards `0 ≤ i < shardCount` in
order, dropped shards skipped. -/
def shardStreamEntries (entries : List Entry) (shardCount : ℕ) :
    List (List Entry) :=
  (List.range shardCount).filterMap (createShardEntries entries shardCount)

/-! ## Quorum tracking: `sendSamples` (lines 528-558) and `pushTracker`

The per-replica goroutines communicate only through the atomic counters
`streamTracker.succeeded`, `streamTracker.failed`,
`pushTracker.samplesPending` and `pushTracker.samplesFailed`; each signal
decision is a pure function of the return value of the atomic operation that
precedes it.  Atomic operations linearize, so every concurrent execution is
observationally equal to some sequential order of per-(replica, stream)
completion events; the machine below processes such an event list.  An event
`(i, true)` is a successful replica RPC acknowledging stream `i`, `(i, false)`
a failed one.  A replica sends at most one event per stream it holds, so a
stream with replication set of size `n` receives at most `n` events. -/

/-- Counters of one `streamTracker` (`succeeded`/`failed` are `atomic.Int32`,
modelled as unbounded integers: event counts stay far below 2^31). -/
structure StreamCtr where
  minSuccess : Int
  maxFailures : Int
  succeeded : Int
  failed : Int
deriving Repr, DecidableEq

/-- State of one `pushTracker` together with its stream trackers.
`doneSignals` / `errSignals` count the values sent on the `done` / `err`
channels (each has buffer capacity 1; the code sends at most once). -/
structure PushState where
  trackers : List StreamCtr
  samplesPending : Int
  samplesFailed : Int
  doneSignals : Nat
  errSignals : Nat
deriving Repr, DecidableEq

/-- The `pushTracker` and stream trackers as initialized by `pushStreams`
(lines 386-391): counters zero, `samplesPending` set to the number of
streams, nothing signalled yet. -/
def initPushState (ts : List (Int × Int)) : PushState :=
  { trackers := ts.map fun p => ⟨p.1, p.2, 0, 0⟩
  , samplesPending := (ts.length : Int)
  , samplesFailed := 0
  , doneSignals := 0
  , errSignals := 0 }

/-- Model of one iteration of the loop body of `sendSamples`
(lines 541-557) for stream `i`: on failure, `failed.Inc()`; if the new value
exceeds `maxFailures`, `samplesFailed.Inc()`; if that made it 1, send on
`err`.  On success, `succeeded.Inc()`; if the new value equals `minSuccess`,
`samplesPending.Dec()`; if that made it 0, send on `done`. -/
def sendSamplesStep (st : PushState) (ev : Nat × Bool) : PushState :=
  match st.trackers[ev.1]? with
  | none => st
  | some t =>
    if ev.2 then
      let t' := { t with succeeded := t.succeeded + 1 }
      let st' := { st with trackers := st.trackers.set ev.1 t' }
      if t'.succeeded ≠ t.minSuccess then st'
      else
        let p := st'.samplesPending - 1
        if p = 0 then
          { st' with samplesPending := p, doneSignals := st'.doneSignals + 1 }
        else { st' with samplesPending := p }
    else
      let t' := { t with failed := t.failed + 1 }
      let st' := { st with trackers := st.trackers.set ev.1 t' }
      if t'.failed ≤ t.maxFailures then st'
      else
        let f := st'.samplesFailed + 1
        if f = 1 then
          { st' with samplesFailed := f, errSignals := st'.errSignals + 1 }
        else { st' with samplesFailed := f }

/-- Runs the quorum machine over a list of completion events. -/
def runEvents (st : PushState) (evs : List (Nat × Bool)) : PushState :=
  evs.foldl sendSamplesStep st

/-- Number of events in `evs` addressed to stream `i`. -/
def evCount (i : Nat) (evs : List (Nat × Bool)) : Nat :=
  (evs.filter fun e => e.1 = i).length

/-- Sum over all trackers of the failure overflow
`max (failed - maxFailures) 0`; equals `samplesFailed` throughout a run. -/
def overflowSum (l : List StreamCtr) : Int :=
  (l.map fun t => max (t.failed - t.maxFailures) 0).sum

/-- Whether a tracker's success counter has reached a positive `minSuccess`
(the condition under which the code has decremented `samplesPending` for
it). -/
def reachedB (t : StreamCtr) : Bool :=
  t.minSuccess ≤ t.succeeded ∧ 1 ≤ t.minSuccess

/-- Number of trackers whose success counter has reached a positive
`minSuccess`; `samplesPending` equals the tracker count minus this. -/
def reachedCount (l : List StreamCtr) : Nat :=
  (l.filter reachedB).length

/-- Per-tracker part of the quorum invariant: quorum parameters match the
creation-time ones, counters are non-negative, and the counters plus the
stream's still-pending events account exactly for the stream's events in the
whole run. -/
def TrackClause (ts : List (Int × Int)) (evs rest : List (Nat × Bool))
    (trackers : List StreamCtr) : Prop :=
  ∀ i, (h : i < trackers.length) → (h2 : i < ts.length) →
    (trackers.get ⟨i, h⟩).minSuccess = (ts.get ⟨i, h2⟩).1 ∧
    (trackers.get ⟨i, h⟩).maxFailures = (ts.get ⟨i, h2⟩).2 ∧
    0 ≤ (trackers.get ⟨i, h⟩).succeeded ∧
    0 ≤ (trackers.get ⟨i, h⟩).failed ∧
    (trackers.get ⟨i, h⟩).succeeded + (trackers.get ⟨i, h⟩).failed
      + (evCount i rest : Int) = (evCount i evs : Int)

/-- Invariant of the quorum machine.  `ts` are the quorum parameters the
trackers were created with, `evs` the complete event list, `rest` the events
still to be processed. -/
def QuorumInv (ts : List (Int × Int)) (evs rest : List (Nat × Bool))
    (st : PushState) : Prop :=
  st.trackers.length = ts.length ∧
  TrackClause ts evs rest st.trackers ∧
  st.samplesFailed = overflowSum st.trackers ∧
  st.errSignals = (if 1 ≤ st.samplesFailed then 1 else 0) ∧
  st.samplesPending = (ts.length : Int) - (reachedCount st.trackers : Int) ∧
  st.doneSignals
    = (if reachedCount st.trackers = ts.length ∧ ts.length ≠ 0 then 1 else 0)

/-! ## WAL Watcher (`clients/pkg/promtail/wal/watcher.go`) -/

/-- Watcher-side error values.  `eof` stands for `io.EOF` (the expected
"caught up" condition while tailing); `sinkErr` for an error returned by
`WriteTo.AppendEntries`; `ioErr` for any other read/list/decode error.
`errors.Wrapf` / `fmt.Errorf` wrapping is dropped: `errors.Cause` recovers the
underlying value, which is all the watcher inspects. -/
inductive WErr where
  | eof
  | sinkErr (code : Nat)
  | ioErr (code : Nat)
deriving Repr, DecidableEq

/-- Decimal digit run parser backing `atoi`: consumes the whole list, failing
on any non-digit; accumulates the value. -/
def decDigitsAux : List Char → Nat → Option Nat
  | [], acc => some acc
  | c :: cs, acc =>
    if '0' ≤ c ∧ c ≤ '9' then decDigitsAux cs (acc * 10 + (c.toNat - 48))
    else none

/-- Model of Go `strconv.Atoi` (= `ParseInt(s, 10, 0)` with 64-bit `int`):
an optional leading `+`/`-` followed by one or more ASCII digits, value within
the `int64` range; anything else is an error (`none`). -/
def atoi (s : String) : Option Int :=
  match s.toList with
  | [] => none
  | '+' :: rest =>
    if rest = [] then none
    else (decDigitsAux rest 0).bind fun n =>
      if (n : Int) ≤ 9223372036854775807 then some (n : Int) else none
  | '-' :: rest =>
    if rest = [] then none
    else (decDigitsAux rest 0).bind fun n =>
      if (n : Int) ≤ 9223372036854775808 then some (-(n : Int)) else none
  | l =>
    (decDigitsAux l 0).bind fun n =>
      if (n : Int) ≤ 9223372036854775807 then some (n : Int) else none

/-- Model of `readSegmentNumbers` (lines 329-344): the argument is the
outcome of `os.ReadDir` (an error, or the list of entry names); every name is
parsed with `strconv.Atoi` and unparseable names are skipped. -/
def readSegmentNumbers (dirList : Except WErr (List String)) :
    Except WErr (List Int) :=
  match dirList with
  | .error e => .error e
  | .ok files => .ok (files.filterMap atoi)

/-- Model of `Watcher.firstAndLast` (lines 292-315): on a directory error,
`(-1, -1)` with the error; with no parsed segment numbers, `(-1, -1)` and no
error; otherwise a walk from the sentinels `math.MaxInt32` and `-1` keeping
the smallest (`segmentReg < first`) and largest (`segmentReg > last`) value. -/
def firstAndLast (dirList : Except WErr (List String)) :
    Except WErr (Int × Int) :=
  match readSegmentNumbers dirList with
  | .error e => .error e
  | .ok refs =>
    if refs = [] then .ok (-1, -1)
    else
      .ok (refs.foldl (fun first r => if r < first then r else first) 2147483647,
           refs.foldl (fun last r => if last < r then r else last) (-1))

/-- Series definition carried by a WAL record (`record.RefSeries`). -/
structure RefSeries where
  ref : Nat
  labels : String
deriving Repr, DecidableEq

/-- Entry batch carried by a WAL record (`wal.RefEntries`): entries of one
series, referenced by id. -/
structure RefEntries where
  ref : Nat
  entries : List Entry
deriving Repr, DecidableEq

/-- Decoded WAL record (`wal.Record`): series definitions plus per-series
entry batches. -/
structure WalRec where
  series : List RefSeries
  refEntries : List RefEntries
deriving Repr, DecidableEq

/-- One call observed by the `WriteTo` sink, in dispatch order. -/
inductive SinkCall where
  | storeSeries (series : List RefSeries) (segmentNum : Int)
  | appendEntries (entries : RefEntries)
  | seriesReset (segmentNum : Int)
deriving Repr, DecidableEq

/-- Injected watcher capabilities: `wal.DecodeRecord` (external package
`pkg/ingester/wal`) and the sink's `AppendEntries` result, modelled as pure
functions. -/
structure WatchEnv where
  decodeRecord : List Nat → Except WErr WalRec
  appendEntries : RefEntries → Option WErr

/-- Model of the entry-batch loop of `decodeAndDispatch` (lines 273-277):
every batch is handed to the sink (first component of each trace element) and
the first error is remembered while later batches are still dispatched. -/
def dispatchEntries (append : RefEntries → Option WErr) :
    List RefEntries → Option WErr × List SinkCall
  | [] => (none, [])
  | es :: rest =>
    let r := dispatchEntries append rest
    ((match append es with | some e => some e | none => r.1),
     SinkCall.appendEntries es :: r.2)

/-- Model of `Watcher.decodeAndDispatch` (lines 262-280): decode the record
(failure aborts with no sink call); call `StoreSeries` with all series first;
then dispatch every entry batch, returning the first `AppendEntries` error. -/
def decodeAndDispatch (env : WatchEnv) (b : List Nat) (segmentNum : Int) :
    Option WErr × List SinkCall :=
  match env.decodeRecord b with
  | .error e => (some e, [])
  | .ok rec =>
    let r := dispatchEntries env.appendEntries rec.refEntries
    (r.1, SinkCall.storeSeries rec.series segmentNum :: r.2)

/-- Abstraction of a `wlog.LiveReader` over one segment: the records the
reader will yield (each with the value of `r.Err()` observed right after
`Next()` returned true), and the value of `r.Err()` once `Next()` returns
false (`io.EOF` while tailing a live segment). -/
structure SegReader where
  items : List (List Nat × Option WErr)
  endErr : Option WErr
deriving Repr

/-- Model of the loop of `Watcher.readSegment` (lines 245-258) over the
reader's items: a reader error after `Next()` aborts; otherwise the record is
decoded and dispatched, and a `decodeAndDispatch` error aborts the loop and is
returned (later records of the segment are not processed); when the items are
exhausted, `errors.Wrapf(r.Err(), ...)` returns the reader's final error
(`nil` stays `nil`). -/
def readSegmentGo (env : WatchEnv) (segmentNum : Int) (endErr : Option WErr) :
    List (List Nat × Option WErr) → Option WErr × List SinkCall
  | [] => (endErr, [])
  | (_, some e) :: _ => (some e, [])
  | (b, none) :: rest =>
    match decodeAndDispatch env b segmentNum with
    | (some err, tr) => (some err, tr)
    | (none, tr) =>
      let r := readSegmentGo env segmentNum endErr rest
      (r.1, tr ++ r.2)

/-- Model of `Watcher.readSegment`. -/
def readSegment (env : WatchEnv) (rd : SegReader) (segmentNum : Int) :
    Option WErr × List SinkCall :=
  readSegmentGo env segmentNum rd.endErr rd.items

/-- One wake-up of the `select` in `Watcher.watch` (lines 206-241):
the quit channel is closed; the segment-check ticker fires (carrying the
outcome of listing the WAL directory at that moment, and the outcome
`readSegment` would produce when draining the current segment); or the read
ticker fires (carrying the outcome of `readSegment`). -/
inductive WatchEvent where
  | quitClosed
  | segTick (dir : Except WErr (List String)) (drainRes : Option WErr)
  | readTick (res : Option WErr)
deriving Repr

/-- How a `watch` invocation ended: still tailing (no more events in the
model), returned `nil` (the caller `run` advances to the next segment), or
returned an error (the caller `run` aborts and `mainLoop` retries after
backoff). -/
inductive WatchOutcome where
  | tailing
  | exitOk
  | exitErr (e : WErr)
deriving Repr, DecidableEq

/-- Reads of the current segment performed by `watch`, in order:
`drained s` is the final `readSegment` run after a new segment was detected,
`readAttempt s` a read-ticker `readSegment` run. -/
inductive WatchAction where
  | drained (seg : Int)
  | readAttempt (seg : Int)
deriving Repr, DecidableEq

/-- Model of the loop of `Watcher.watch` (lines 206-241) while tailing
segment `segmentNum`.  Quit returns `nil`.  A segment tick lists the
directory (`firstAndLast`; an error is fatal); if the observed maximum is at
most the current segment the loop continues; otherwise the remainder of the
current segment is drained once and `watch` returns — `nil` unless the drain
failed with a non-EOF error.  A read tick reads the segment; a non-EOF error
return (including `nil`, which `errors.Cause` also maps away from `io.EOF`)
makes `watch` return it; an EOF keeps tailing. -/
def watchLoop (segmentNum : Int) : List WatchEvent → WatchOutcome × List WatchAction
  | [] => (.tailing, [])
  | .quitClosed :: _ => (.exitOk, [])
  | .segTick dir drainRes :: rest =>
    match firstAndLast dir with
    | .error e => (.exitErr e, [])
    | .ok fl =>
      if fl.2 ≤ segmentNum then watchLoop segmentNum rest
      else
        match drainRes with
        | some e =>
          if e = .eof then (.exitOk, [.drained segmentNum])
          else (.exitErr e, [.drained segmentNum])
        | none => (.exitOk, [.drained segmentNum])
  | .readTick res :: rest =>
    match res with
    | some e =>
      if e = .eof then
        let r := watchLoop segmentNum rest
        (r.1, .readAttempt segmentNum :: r.2)
      else (.exitErr e, [.readAttempt segmentNum])
    | none => (.exitOk, [.readAttempt segmentNum])

/-- Model of the segment advance in `Watcher.run` (lines 173-182): after
`watch(currentSegment)` returns `nil`, `run` stops if the testing hook
`MaxSegment` equals the current segment and otherwise tails exactly
`currentSegment + 1` next; an error return aborts `run`. -/
def runAdvance (maxSegment currentSegment : Int) (o : WatchOutcome) : Option Int :=
  match o with
  | .exitOk => if currentSegment = maxSegment then none else some (currentSegment + 1)
  | _ => none

/-! ## Series-reset sweep (lines 110-155) -/

/-- Modelled from the spec: the `diffset` type used for
`Watcher.seenSegments` is code of this repository that is not under `src/`
(only `watcher.go`, its caller, is available).  Per the spec's §4.6, it is a
set of segment ids supporting construction from a list and set difference
("diff the newly observed segment-id set against the previously observed
set"). -/
abbrev Diffset : Type := Finset Int

/-- Modelled from the spec: `newDiffset` builds the set of the given segment
numbers. -/
def newDiffset (segments : List Int) : Diffset := segments.toFinset

/-- Modelled from the spec: `old.Difference(new)` is the set of previously
seen ids that are now absent. -/
def diffsetDiff (old new : Diffset) : Diffset := old \ new

/-- Model of `Watcher.readSegmentsAndEmitSeriesResets` (lines 127-155):
list the directory (errors propagate), replace `seenSegments` with the newly
observed set, and if any previously seen id disappeared emit a single
`SeriesReset` whose argument is the result of the max-walk over the diff
starting at `-1` (`maxDeleted`).  Returns the new seen-set and the emitted
sink calls. -/
def readSegmentsAndEmitSeriesResets (dirList : Except WErr (List String))
    (seen : Diffset) : Except WErr (Diffset × List SinkCall) :=
  match readSegmentNumbers dirList with
  | .error e => .error e
  | .ok segments =>
    let newSeen := newDiffset segments
    let diff := diffsetDiff seen newSeen
    if diff = (∅ : Diffset) then .ok (newSeen, [])
    else .ok (newSeen, [SinkCall.seriesReset (Finset.fold max (-1) id diff)])

/-! ## Concrete environments used by counterexamples and witnesses -/

/-- Distributor environment whose entry validator rejects every entry
(labels parse fine, rate limiting allows everything, sharding disabled). -/
def entryRejectEnv : DistEnv where
  vctx := ⟨false, false, 0⟩
  parseStreamLabels := fun l => .ok l
  validateEntry := fun _ _ => some ⟨9⟩
  allowN := fun _ => true
  limit := 10
  tokenFor := fun _ => 0
  shardEnabled := false
  shardFn := fun s => ([], [s])

/-- Distributor environment whose validator accepts every entry but whose
rate limiter refuses every request. -/
def rateDenyEnv : DistEnv where
  vctx := ⟨false, false, 0⟩
  parseStreamLabels := fun l => .ok l
  validateEntry := fun _ _ => none
  allowN := fun _ => false
  limit := 10
  tokenFor := fun _ => 0
  shardEnabled := false
  shardFn := fun s => ([], [s])

/-- Distributor environment whose label parser fails exactly on the label
string `"bad"`. -/
def labelFailEnv : DistEnv where
  vctx := ⟨false, false, 0⟩
  parseStreamLabels := fun l => if l = "bad" then .error ⟨3⟩ else .ok l
  validateEntry := fun _ _ => none
  allowN := fun _ => true
  limit := 10
  tokenFor := fun _ => 0
  shardEnabled := false
  shardFn := fun s => ([], [s])

/-- Watcher environment for the dispatch counterexample: record `[1]` decodes
to series `1` with entry batches for refs `1` and `2`; any other record
decodes to series `3` with one batch; the sink fails exactly on batches of
ref `1`. -/
def walEnvCex : WatchEnv where
  decodeRecord := fun b =>
    if b = [1] then .ok ⟨[⟨1, "s1"⟩], [⟨1, [⟨1, [7]⟩]⟩, ⟨2, [⟨2, [8]⟩]⟩]⟩
    else .ok ⟨[⟨3, "s2"⟩], [⟨3, [⟨3, [9]⟩]⟩]⟩
  appendEntries := fun es => if es.ref = 1 then some (.sinkErr 5) else none

/-- Live reader yielding records `[1]` then `[2]`, then reporting `io.EOF`. -/
def rdrCex : SegReader := ⟨[([1], none), ([2], none)], some .eof⟩

/-- Constant ring of three instances with `MaxErrors = 1`. -/
def ringCst : Nat → Except PushErr ReplicationSet := fun _ => .ok ⟨["a", "b", "c"], 1⟩

/-- One key/stream pair fed to `pushStreamsLoop` in the C9 witness. -/
def pairs9 : List (Nat × Stream) := [(5, ⟨"x", [], 0⟩)]

/-- The tracker/replica-set list `pushStreamsLoop` builds from `pairs9`. -/
def out9 : List (STrack × ReplicationSet) := [(⟨⟨"x", [], 0⟩, 2, 1⟩, ⟨["a", "b", "c"], 1⟩)]

/-! ## Theorems -/

/-- Auxiliary: the stream loop of `validateStreams` on the empty list. -/
theorem validateLoop_nil (env : DistEnv) : validateLoop env [] = ⟨[], [], none, 0, 0⟩ := rfl

/-- Claim C2: a Push whose total validated byte size is refused by the
tenant's rate limiter (`AllowN` returns `false`, which the code only consults
when at least one validated stream remains) rejects the entire batch: the
result is the `TooManyRequests` (429) error carrying the tenant's limit, the
validated sample count and the validated byte size, and `pushStreams` is
never invoked, so no stream is forwarded, no ring lookup and no RPC occurs. -/
theorem spec_c2_rate_limit_all_or_nothing (env : DistEnv) (streams : List Stream)
    (hne : (validateLoop env streams).streams ≠ [])
    (hdeny : env.allowN (validateLoop env streams).size = false) :
    Push env streams
      = .err (.rateLimited env.limit (validateLoop env streams).count
          (validateLoop env streams).size) ∧
    pushErrStatus (.rateLimited env.limit (validateLoop env streams).count
          (validateLoop env streams).size) = 429 ∧
    ∀ ks vs verr, Push env streams ≠ .forwarded ks vs verr := by
  have hs : streams ≠ [] := by
    intro h
    rw [h, validateLoop_nil] at hne
    exact hne rfl
  have hv : validateStreams env streams
      = .rejected env.limit (validateLoop env streams).count
          (validateLoop env streams).size := by
    unfold validateStreams
    rw [if_neg hne, if_neg (by simp [hdeny])]
  refine ⟨?_, rfl, ?_⟩
  · unfold Push
    rw [if_neg hs, hv]
  · intro ks vs verr hcontra
    unfold Push at hcontra
    rw [if_neg hs, hv] at hcontra
    exact PushResult.noConfusion hcontra

/-- Witness for C2 at a concrete input: one stream with one 1-byte entry, a
rate limiter that refuses everything. -/
theorem spec_c2_witness :
    ((validateLoop rateDenyEnv [⟨"a", [⟨1, [65]⟩], 0⟩]).streams ≠ [] ∧
     rateDenyEnv.allowN (validateLoop rateDenyEnv [⟨"a", [⟨1, [65]⟩], 0⟩]).size = false) ∧
    Push rateDenyEnv [⟨"a", [⟨1, [65]⟩], 0⟩] = .err (.rateLimited 10 1 1) :=
  ⟨⟨by decide, rfl⟩,
   (spec_c2_rate_limit_all_or_nothing _ _ (by decide) rfl).1⟩

/-- Auxiliary: `truncateLines` never changes the label string. -/
theorem truncateLines_labels (ctx : VCtx) (s : Stream) :
    (truncateLines ctx s).labels = s.labels := by
  unfold truncateLines
  split <;> rfl

/-- Counterexample to claim C10 as stated: entry validation discarding every
entry of a stream does NOT drop the stream.  Here the request's single stream
has its only entry rejected by the validator, so per the claim's premise every
stream is "dropped during validation", yet `Push` still forwards the
(now entry-less) stream to `pushStreams`, which performs a ring lookup for its
key and builds a tracker for it — rather than returning the empty response. -/
theorem spec_c10_counterexample :
    (∀ s ∈ [(⟨"a", [⟨1, [65]⟩], 0⟩ : Stream)], ∀ e ∈ s.entries,
        entryRejectEnv.validateEntry s.labels e ≠ none) ∧
    Push entryRejectEnv [⟨"a", [⟨1, [65]⟩], 0⟩]
      = .forwarded [0] [⟨"a", [], 0⟩] (some ⟨9⟩) ∧
    (∀ verr, Push entryRejectEnv [⟨"a", [⟨1, [65]⟩], 0⟩] ≠ .emptyOk verr) ∧
    pushStreamsLoop (fun _ => .ok ⟨["i1", "i2", "i3"], 1⟩) ([0].zip [⟨"a", [], 0⟩])
      = .ok [(⟨⟨"a", [], 0⟩, 2, 1⟩, ⟨["i1", "i2", "i3"], 1⟩)] := by
  refine ⟨by decide, rfl, ?_, rfl⟩
  intro verr hcontra
  rw [show Push entryRejectEnv [⟨"a", [⟨1, [65]⟩], 0⟩]
      = .forwarded [0] [⟨"a", [], 0⟩] (some ⟨9⟩) from rfl] at hcontra
  exact PushResult.noConfusion hcontra

/-- Claim C10 (amended): only streams with empty entry lists and streams
whose labels fail to parse are dropped during validation (a stream whose
entries are all discarded by entry validation is still forwarded, with no
entries).  When every stream of a non-empty request is dropped for one of
those two reasons, `Push` performs no ring lookup and sends no RPC
(`pushStreams` is not invoked) and returns the non-nil empty `PushResponse`
paired with the last validation error — which is `nil` when all streams
merely had no entries. -/
theorem spec_c10_all_streams_dropped (env : DistEnv) (streams : List Stream)
    (h : ∀ s ∈ streams, s.entries = [] ∨
      ∃ e, env.parseStreamLabels s.labels = .error e) :
    Push env streams = .emptyOk (validateLoop env streams).verr ∧
    ((∀ s ∈ streams, s.entries = []) → (validateLoop env streams).verr = none) ∧
    (∀ ks vs verr, Push env streams ≠ .forwarded ks vs verr) := by
  have hmain : ∀ l, (∀ s ∈ l, s.entries = [] ∨
      ∃ e, env.parseStreamLabels s.labels = .error e) →
      (validateLoop env l).streams = [] ∧
      ((∀ s ∈ l, s.entries = []) → (validateLoop env l).verr = none) := by
    intro l hl
    induction l with
    | nil => exact ⟨rfl, fun _ => rfl⟩
    | cons s rest ih =>
      have hrest := ih (fun x hx => hl x (List.mem_cons_of_mem s hx))
      by_cases hE : s.entries.isEmpty = true
      · constructor
        · show ((if s.entries.isEmpty then (⟨[], [], none, 0, 0⟩ : VAcc)
              else _).streams ++ (validateLoop env rest).streams) = []
          rw [if_pos hE, hrest.1]
          rfl
        · intro hall
          have h2 := hrest.2 (fun x hx => hall x (List.mem_cons_of_mem s hx))
          show overrideErr (if s.entries.isEmpty then (⟨[], [], none, 0, 0⟩ : VAcc)
              else _).verr (validateLoop env rest).verr = none
          rw [if_pos hE, h2]
          rfl
      · have hne : s.entries ≠ [] := by
          intro hn
          exact hE (by rw [hn]; rfl)
        obtain ⟨e, hpe⟩ := (hl s (List.mem_cons_self s rest)).resolve_left hne
        have hpe' : env.parseStreamLabels (truncateLines env.vctx s).labels = .error e := by
          rw [truncateLines_labels]; exact hpe
        constructor
        · show ((if s.entries.isEmpty then (⟨[], [], none, 0, 0⟩ : VAcc)
              else match env.parseStreamLabels (truncateLines env.vctx s).labels with
                   | .error e => (⟨[], [], some e, 0, 0⟩ : VAcc)
                   | .ok lbls => _).streams ++ (validateLoop env rest).streams) = []
          rw [if_neg hE, hpe', hrest.1]
          rfl
        · intro hall
          exact absurd (hall s (List.mem_cons_self s rest)) hne
  have hv := hmain streams h
  have hvs : validateStreams env streams
      = .accepted (validateLoop env streams).keys (validateLoop env streams).streams
          (validateLoop env streams).verr := by
    unfold validateStreams
    rw [if_pos hv.1]
  by_cases hs : streams = []
  · subst hs
    exact ⟨rfl, fun _ => rfl, fun ks vs verr hc => PushResult.noConfusion hc⟩
  · have hp : Push env streams = .emptyOk (validateLoop env streams).verr := by
      unfold Push
      rw [if_neg hs, hvs]
      show (if (validateLoop env streams).streams = []
          then PushResult.emptyOk (validateLoop env streams).verr
          else PushResult.forwarded (validateLoop env streams).keys
            (validateLoop env streams).streams (validateLoop env streams).verr)
        = PushResult.emptyOk (validateLoop env streams).verr
      rw [if_pos hv.1]
    refine ⟨hp, hv.2, ?_⟩
    intro ks vs verr hc
    rw [hp] at hc
    exact PushResult.noConfusion hc

/-- Witness for C10 (amended) at a concrete input: one stream with no
entries plus one stream whose labels fail to parse; `Push` answers the empty
response with the label-parse error and forwards nothing. -/
theorem spec_c10_witness :
    (∀ s ∈ [(⟨"ok", [], 0⟩ : Stream), ⟨"bad", [⟨1, [65]⟩], 0⟩], s.entries = [] ∨
      ∃ e, labelFailEnv.parseStreamLabels s.labels = .error e) ∧
    Push labelFailEnv [⟨"ok", [], 0⟩, ⟨"bad", [⟨1, [65]⟩], 0⟩] = .emptyOk (some ⟨3⟩) := by
  have hh : ∀ s ∈ [(⟨"ok", [], 0⟩ : Stream), ⟨"bad", [⟨1, [65]⟩], 0⟩], s.entries = [] ∨
      ∃ e, labelFailEnv.parseStreamLabels s.labels = .error e := by
    intro s hs
    rcases List.mem_cons.mp hs with rfl | hs2
    · exact .inl rfl
    · rcases List.mem_cons.mp hs2 with rfl | hs3
      · exact .inr ⟨⟨3⟩, rfl⟩
      · cases hs3
  exact ⟨hh, (spec_c10_all_streams_dropped labelFailEnv _ hh).1⟩

/-- Claim C9: for every stream tracker built by `pushStreams` after a
successful ring lookup, `minSuccess` is the replica-set size minus the ring's
`MaxErrors`, `maxFailures` is `MaxErrors`, and their sum equals the size of
the stream's replica set as reported by the ring for that stream's hash
key. -/
theorem spec_c9_quorum_parameters (ringGet : Nat → Except PushErr ReplicationSet)
    (pairs : List (Nat × Stream)) (out : List (STrack × ReplicationSet))
    (h : pushStreamsLoop ringGet pairs = .ok out) :
    out.length = pairs.length ∧
    ∀ i, (hi : i < out.length) → (hp : i < pairs.length) →
      ringGet (pairs.get ⟨i, hp⟩).1 = .ok (out.get ⟨i, hi⟩).2 ∧
      (out.get ⟨i, hi⟩).1.stream = (pairs.get ⟨i, hp⟩).2 ∧
      (out.get ⟨i, hi⟩).1.minSuccess
        = ((out.get ⟨i, hi⟩).2.instances.length : Int) - (out.get ⟨i, hi⟩).2.maxErrors ∧
      (out.get ⟨i, hi⟩).1.maxFailures = (out.get ⟨i, hi⟩).2.maxErrors ∧
      (out.get ⟨i, hi⟩).1.minSuccess + (out.get ⟨i, hi⟩).1.maxFailures
        = ((out.get ⟨i, hi⟩).2.instances.length : Int) := by
  induction pairs generalizing out with
  | nil =>
    cases h
    exact ⟨rfl, fun i hi => absurd hi (by simp)⟩
  | cons p rest ih =>
    unfold pushStreamsLoop at h
    cases hg : ringGet p.1 with
    | error e =>
      rw [hg] at h
      cases h
    | ok rs =>
      rw [hg] at h
      cases hrec : pushStreamsLoop ringGet rest with
      | error e =>
        rw [hrec] at h
        cases h
      | ok tl =>
        rw [hrec] at h
        cases h
        obtain ⟨hlen, htl⟩ := ih tl hrec
        refine ⟨by simpa using hlen, ?_⟩
        intro i hi hp
        cases i with
        | zero =>
          refine ⟨?_, rfl, rfl, rfl, ?_⟩
          · cases p
            exact hg
          · show ((rs.instances.length : Int) - rs.maxErrors) + rs.maxErrors
              = (rs.instances.length : Int)
            ring
        | succ n =>
          exact htl n (by simpa using hi) (by simpa using hp)

/-- Witness for C9 at a concrete input: one key/stream pair against a ring
answering three instances with `MaxErrors = 1`, giving `minSuccess = 2`,
`maxFailures = 1`, summing to the replica-set size 3. -/
theorem spec_c9_witness :
    out9.length = pairs9.length ∧
    ∀ i, (hi : i < out9.length) → (hp : i < pairs9.length) →
      ringCst (pairs9.get ⟨i, hp⟩).1 = .ok (out9.get ⟨i, hi⟩).2 ∧
      (out9.get ⟨i, hi⟩).1.stream = (pairs9.get ⟨i, hp⟩).2 ∧
      (out9.get ⟨i, hi⟩).1.minSuccess
        = ((out9.get ⟨i, hi⟩).2.instances.length : Int) - (out9.get ⟨i, hi⟩).2.maxErrors ∧
      (out9.get ⟨i, hi⟩).1.maxFailures = (out9.get ⟨i, hi⟩).2.maxErrors ∧
      (out9.get ⟨i, hi⟩).1.minSuccess + (out9.get ⟨i, hi⟩).1.maxFailures
        = ((out9.get ⟨i, hi⟩).2.instances.length : Int) :=
  spec_c9_quorum_parameters ringCst pairs9 out9 rfl

set_option maxRecDepth 100000 in
/-- Claim C4: the sharding partition property fails on the code, and the code
contradicts the sharding intent (its own doc comment: `shardStream` "shards
(divides) the given stream", and the spec's partition property allows losses
only through *dropped* shards).  For a stream with one entry sharded into 49
pieces: `float64(1)/float64(49)` rounds to `5882252574524729 * 2^-58`, and
`entriesPerWindow * (1 + float64(48))` rounds to `9007199254740991 * 2^-53 =
1 - 2^-53 < 1`, so every one of the 49 shards gets the window `[0, 0)` with
`ok = true` — no shard is dropped — every derived stream is empty, and the
concatenation of the shards' entry slices is empty: the single entry is
silently lost.  Under the claim's exact arithmetic, shard 48's window
`[⌊48·(1/49)⌋, min(⌊49·(1/49)⌋, 1)) = [0, 1)` would keep it. -/
theorem spec_c4_float_shard_entry_loss :
    flDiv (flOfNat 1) (flOfNat 49) = ⟨5882252574524729, -58⟩ ∧
    flMul (flDiv (flOfNat 1) (flOfNat 49)) (flAdd (flOfNat 1) (flOfNat 48))
      = ⟨9007199254740991, -53⟩ ∧
    (∀ i ∈ List.range 49, boundsFor 1 49 i = (0, 0, true)) ∧
    shardStreamEntries [⟨7, [65]⟩] 49 = List.replicate 49 [] ∧
    (shardStreamEntries [⟨7, [65]⟩] 49).flatten = [] ∧
    ([] : List Entry) ≠ [⟨7, [65]⟩] ∧
    (48 * 1 / 49 = 0 ∧ min (49 * 1 / 49) 1 = 1) := by
  refine ⟨by decide, by decide, by decide, by decide, by decide, by decide, by decide⟩

/-- Auxiliary: the min-walk of `firstAndLast` produces either its starting
sentinel or a list element, is bounded by the sentinel, and lies below every
element. -/
theorem foldl_minwalk_spec (l : List Int) : ∀ c : Int,
    (l.foldl (fun first r => if r < first then r else first) c = c ∨
      l.foldl (fun first r => if r < first then r else first) c ∈ l) ∧
    l.foldl (fun first r => if r < first then r else first) c ≤ c ∧
    ∀ x ∈ l, l.foldl (fun first r => if r < first then r else first) c ≤ x := by
  induction l with
  | nil => exact fun c => ⟨.inl rfl, le_refl c, fun x hx => absurd hx (by simp)⟩
  | cons a t ih =>
    intro c
    simp only [List.foldl_cons]
    obtain ⟨hmem, hle, hbelow⟩ := ih (if a < c then a else c)
    have hle' : t.foldl (fun first r => if r < first then r else first)
        (if a < c then a else c) ≤ c := le_trans hle (by split <;> omega)
    have hlea : t.foldl (fun first r => if r < first then r else first)
        (if a < c then a else c) ≤ a := le_trans hle (by split <;> omega)
    refine ⟨?_, hle', ?_⟩
    · rcases hmem with heq | hm
      · rw [heq]
        split
        · exact .inr (List.mem_cons_self a t)
        · exact .inl rfl
      · exact .inr (List.mem_cons_of_mem a hm)
    · intro x hx
      rcases List.mem_cons.mp hx with rfl | hxt
      · exact hlea
      · exact hbelow x hxt

/-- Auxiliary: the max-walk of `firstAndLast` produces either its starting
sentinel or a list element, is bounded below by the sentinel, and lies above
every element. -/
theorem foldl_maxwalk_spec (l : List Int) : ∀ c : Int,
    (l.foldl (fun last r => if last < r then r else last) c = c ∨
      l.foldl (fun last r => if last < r then r else last) c ∈ l) ∧
    c ≤ l.foldl (fun last r => if last < r then r else last) c ∧
    ∀ x ∈ l, x ≤ l.foldl (fun last r => if last < r then r else last) c := by
  induction l with
  | nil => exact fun c => ⟨.inl rfl, le_refl c, fun x hx => absurd hx (by simp)⟩
  | cons a t ih =>
    intro c
    simp only [List.foldl_cons]
    obtain ⟨hmem, hle, habove⟩ := ih (if c < a then a else c)
    have hle' : c ≤ t.foldl (fun last r => if last < r then r else last)
        (if c < a then a else c) := le_trans (by split <;> omega) hle
    have hlea : a ≤ t.foldl (fun last r => if last < r then r else last)
        (if c < a then a else c) := le_trans (by split <;> omega) hle
    refine ⟨?_, hle', ?_⟩
    · rcases hmem with heq | hm
      · rw [heq]
        split
        · exact .inr (List.mem_cons_self a t)
        · exact .inl rfl
      · exact .inr (List.mem_cons_of_mem a hm)
    · intro x hx
      rcases List.mem_cons.mp hx with rfl | hxt
      · exact hlea
      · exact habove x hxt

/-- Counterexample to claim C8 as stated: `strconv.Atoi` also accepts signed
names, so a directory entry named `"-3"` is *not* ignored.  Per the claim it
does not parse as a non-negative segment id, so discovery should report
`(-1, -1)`; the code instead parses it to `-3` and reports `(-3, -1)` (the
max-walk's `-1` sentinel is not even beaten, so the reported "max" is no
parsed id at all). -/
theorem spec_c8_counterexample :
    atoi "-3" = some (-3) ∧
    firstAndLast (.ok ["-3"]) = .ok (-3, -1) ∧
    firstAndLast (.ok ["-3"]) ≠ .ok (-1, -1) := by
  refine ⟨rfl, rfl, ?_⟩
  intro hcontra
  have : ((-3 : Int), (-1 : Int)) = ((-1 : Int), (-1 : Int)) := by
    have h2 := hcontra
    rw [show firstAndLast (.ok ["-3"]) = .ok (-3, -1) from rfl] at h2
    exact Except.ok.inj h2
  exact absurd (congrArg Prod.fst this) (by decide)

/-- Claim C8 (amended): segment discovery lists the WAL directory, parses
every entry name with `strconv.Atoi` semantics (so an optional sign is
accepted: negative ids are possible), ignores without error any name that
does not parse, and returns `(-1, -1)` when no name parses.  When some names
parse and every parsed id lies in `[0, 2^31 - 1]` (as is the case for real
segment files, whose names are decimal numbers starting from 0), it returns
the minimum and maximum parsed ids.  (Outside that range the sentinels
`math.MaxInt32` and `-1` can win the walks, as the counterexample shows.) -/
theorem spec_c8_discovery_min_max (files : List String) :
    (files.filterMap atoi = [] → firstAndLast (.ok files) = .ok (-1, -1)) ∧
    (files.filterMap atoi ≠ [] →
      (∀ x ∈ files.filterMap atoi, 0 ≤ x ∧ x ≤ 2147483647) →
      ∃ a b, firstAndLast (.ok files) = .ok (a, b) ∧
        a ∈ files.filterMap atoi ∧ b ∈ files.filterMap atoi ∧
        ∀ x ∈ files.filterMap atoi, a ≤ x ∧ x ≤ b) := by
  constructor
  · intro hnil
    show (if files.filterMap atoi = [] then Except.ok (-1, -1)
        else Except.ok
          (files.filterMap atoi |>.foldl (fun first r => if r < first then r else first) 2147483647,
           files.filterMap atoi |>.foldl (fun last r => if last < r then r else last) (-1)))
      = Except.ok (-1, -1)
    rw [if_pos hnil]
  · intro hne hrange
    have hfl : firstAndLast (.ok files)
        = .ok (files.filterMap atoi |>.foldl (fun first r => if r < first then r else first) 2147483647,
               files.filterMap atoi |>.foldl (fun last r => if last < r then r else last) (-1)) := by
      show (if files.filterMap atoi = [] then Except.ok (-1, -1)
          else Except.ok
            (files.filterMap atoi |>.foldl (fun first r => if r < first then r else first) 2147483647,
             files.filterMap atoi |>.foldl (fun last r => if last < r then r else last) (-1)))
        = _
      rw [if_neg hne]
    obtain ⟨hminmem, hminle, hminbelow⟩ := foldl_minwalk_spec (files.filterMap atoi) 2147483647
    obtain ⟨hmaxmem, hmaxle, hmaxabove⟩ := foldl_maxwalk_spec (files.filterMap atoi) (-1)
    refine ⟨_, _, hfl, ?_, ?_, fun x hx => ⟨hminbelow x hx, hmaxabove x hx⟩⟩
    · rcases hminmem with heq | hm
      · obtain ⟨x0, hx0⟩ := List.exists_mem_of_ne_nil _ hne
        have h1 := hminbelow x0 hx0
        have h2 := (hrange x0 hx0).2
        have hx0eq : x0 = 2147483647 := by omega
        rw [heq, ← hx0eq]
        exact hx0
      · exact hm
    · rcases hmaxmem with heq | hm
      · obtain ⟨x0, hx0⟩ := List.exists_mem_of_ne_nil _ hne
        have h1 := hmaxabove x0 hx0
        have h2 := (hrange x0 hx0).1
        exact absurd (heq ▸ h1) (by omega)
      · exact hm

/-- Witness for C8 (amended) at a concrete directory: names `"2"`, `"0"` and
`"x"`; the parseable ids are `[2, 0]` and discovery reports `(0, 2)`. -/
theorem spec_c8_witness :
    (["2", "0", "x"].filterMap atoi ≠ [] ∧
      ∀ x ∈ ["2", "0", "x"].filterMap atoi, 0 ≤ x ∧ x ≤ 2147483647) ∧
    ∃ a b, firstAndLast (.ok ["2", "0", "x"]) = .ok (a, b) ∧
      a ∈ ["2", "0", "x"].filterMap atoi ∧ b ∈ ["2", "0", "x"].filterMap atoi ∧
      ∀ x ∈ ["2", "0", "x"].filterMap atoi, a ≤ x ∧ x ≤ b :=
  ⟨⟨by decide, by decide⟩,
   (spec_c8_discovery_min_max ["2", "0", "x"]).2 (by decide) (by decide)⟩

/-- Claim C7: while tailing segment `S`, a segment-check tick whose directory
scan reports a maximum existing segment strictly greater than `S` makes
`watch` drain the remainder of `S` exactly once and return `nil` (when the
drain itself does not fail with a non-EOF error), after which `run` advances
to exactly `S + 1` (it increments by one, never skipping, whenever the
testing hook `MaxSegment` differs from `S`); a tick whose observed maximum is
at most `S` leaves the loop tailing `S` exactly as if the tick had not
fired. -/
theorem spec_c7_segment_advance (S : Int) (rest : List WatchEvent)
    (dir : Except WErr (List String)) (drainRes : Option WErr)
    (first lastSeg : Int) (h : firstAndLast dir = .ok (first, lastSeg)) :
    (lastSeg ≤ S → watchLoop S (.segTick dir drainRes :: rest) = watchLoop S rest) ∧
    (S < lastSeg → (drainRes = none ∨ drainRes = some .eof) →
      watchLoop S (.segTick dir drainRes :: rest) = (.exitOk, [.drained S]) ∧
      ∀ maxSeg, S ≠ maxSeg → runAdvance maxSeg S .exitOk = some (S + 1)) := by
  constructor
  · intro hle
    simp only [watchLoop, h]
    rw [if_pos hle]
  · intro hgt hdrain
    constructor
    · rcases hdrain with rfl | rfl
      · simp only [watchLoop, h]
        rw [if_neg (by omega)]
      · simp only [watchLoop, h]
        rw [if_neg (by omega)]
        rw [if_pos trivial]
    · intro maxSeg hne
      unfold runAdvance
      rw [if_neg hne]

/-- Witness for C7 at a concrete input: tailing segment 3, the scan sees
segment 4 (max 4 > 3), the drain ends in `io.EOF`; `watch` exits normally
after one drain and `run` advances to segment 4; a scan seeing only
segment 3 keeps tailing. -/
theorem spec_c7_witness :
    (firstAndLast (.ok ["4"]) = .ok (4, 4) ∧ (3 : Int) < 4 ∧ (3 : Int) ≠ -1) ∧
    (watchLoop 3 [.segTick (.ok ["4"]) (some .eof), .readTick (some .eof)]
        = (.exitOk, [.drained 3]) ∧
      runAdvance (-1) 3 .exitOk = some 4) ∧
    watchLoop 3 [.segTick (.ok ["3"]) none, .readTick (some .eof)]
      = watchLoop 3 [.readTick (some .eof)] := by
  have h4 := (spec_c7_segment_advance 3 [.readTick (some .eof)] (.ok ["4"])
    (some .eof) 4 4 rfl).2 (by decide) (.inr rfl)
  have h3 := (spec_c7_segment_advance 3 [.readTick (some .eof)] (.ok ["3"])
    none 3 3 rfl).1 (by decide)
  exact ⟨⟨rfl, by decide, by decide⟩, ⟨h4.1, h4.2 (-1) (by decide)⟩, h3⟩

/-- Auxiliary: the entry-batch dispatch loop of `decodeAndDispatch` hands
every batch to the sink in order and returns the first error the sink
reported. -/
theorem dispatchEntries_spec (append : RefEntries → Option WErr) (l : List RefEntries) :
    (dispatchEntries append l).2 = l.map SinkCall.appendEntries ∧
    (dispatchEntries append l).1 = ((l.map append).filterMap id).head? := by
  induction l with
  | nil => exact ⟨rfl, rfl⟩
  | cons es rest ih =>
    constructor
    · show SinkCall.appendEntries es :: (dispatchEntries append rest).2
        = SinkCall.appendEntries es :: rest.map SinkCall.appendEntries
      rw [ih.1]
    · show (match append es with
        | some e => some e
        | none => (dispatchEntries append rest).1)
        = (((append es :: rest.map append)).filterMap id).head?
      cases happ : append es with
      | some e => rfl
      | none =>
        rw [ih.2]
        rfl

/-- Counterexample to claim C3 as stated: a sink error on an entry batch
*does* abort tailing of the current segment.  Record `[1]`'s first batch
fails at the sink; `readSegment` dispatches the rest of record `[1]`'s
batches but then returns the error without ever reaching record `[2]`
(compare the trace of the same reader under a never-failing sink), and the
non-EOF error makes `watch` return it, aborting the tailing attempt — the
current segment is NOT tailed "as if no error occurred". -/
theorem spec_c3_counterexample :
    walEnvCex.appendEntries ⟨1, [⟨1, [7]⟩]⟩ = some (.sinkErr 5) ∧
    readSegment walEnvCex rdrCex 0
      = (some (.sinkErr 5),
         [.storeSeries [⟨1, "s1"⟩] 0,
          .appendEntries ⟨1, [⟨1, [7]⟩]⟩,
          .appendEntries ⟨2, [⟨2, [8]⟩]⟩]) ∧
    readSegment { walEnvCex with appendEntries := fun _ => none } rdrCex 0
      = (some .eof,
         [.storeSeries [⟨1, "s1"⟩] 0,
          .appendEntries ⟨1, [⟨1, [7]⟩]⟩,
          .appendEntries ⟨2, [⟨2, [8]⟩]⟩,
          .storeSeries [⟨3, "s2"⟩] 0,
          .appendEntries ⟨3, [⟨3, [9]⟩]⟩]) ∧
    watchLoop 0 [.readTick (some (.sinkErr 5))]
      = (.exitErr (.sinkErr 5), [.readAttempt 0]) := by
  exact ⟨rfl, rfl, rfl, rfl⟩

/-- Claim C3 (amended): when the sink fails on an entry batch of a decoded
record, `decodeAndDispatch` still dispatches every remaining entry batch of
that record (all batches appear in the trace, after the series) and remembers
only the first error; that first error is however returned, which makes
`readSegment` stop before any later record of the segment and propagate the
error (aborting the tailing attempt, which `mainLoop` then retries after
backoff). -/
theorem spec_c3_first_error_keeps_dispatching (env : WatchEnv) (b : List Nat)
    (seg : Int) (rec : WalRec) (hdec : env.decodeRecord b = .ok rec) :
    (decodeAndDispatch env b seg).2
      = SinkCall.storeSeries rec.series seg
          :: rec.refEntries.map SinkCall.appendEntries ∧
    (decodeAndDispatch env b seg).1
      = ((rec.refEntries.map env.appendEntries).filterMap id).head? ∧
    (∀ e tr rest endErr, decodeAndDispatch env b seg = (some e, tr) →
      readSegment env ⟨(b, none) :: rest, endErr⟩ seg = (some e, tr)) := by
  have hd : decodeAndDispatch env b seg
      = ((dispatchEntries env.appendEntries rec.refEntries).1,
         SinkCall.storeSeries rec.series seg
           :: (dispatchEntries env.appendEntries rec.refEntries).2) := by
    unfold decodeAndDispatch
    rw [hdec]
  obtain ⟨htr, herr⟩ := dispatchEntries_spec env.appendEntries rec.refEntries
  refine ⟨by rw [hd, htr], by rw [hd]; exact herr, ?_⟩
  intro e tr rest endErr hrun
  show (match decodeAndDispatch env b seg with
    | (some err, tr) => (some err, tr)
    | (none, tr) =>
      let r := readSegmentGo env seg endErr rest
      (r.1, tr ++ r.2)) = (some e, tr)
  rw [hrun]

/-- Witness for C3 (amended) at a concrete input: record `[1]` of
`walEnvCex` decodes to two entry batches, the first of which fails; both
batches are dispatched, the first error is kept, and the segment read stops
with it. -/
theorem spec_c3_witness :
    walEnvCex.decodeRecord [1]
      = .ok ⟨[⟨1, "s1"⟩], [⟨1, [⟨1, [7]⟩]⟩, ⟨2, [⟨2, [8]⟩]⟩]⟩ ∧
    (decodeAndDispatch walEnvCex [1] 0).2
      = SinkCall.storeSeries [⟨1, "s1"⟩] 0
          :: ([⟨1, [⟨1, [7]⟩]⟩, ⟨2, [⟨2, [8]⟩]⟩] : List RefEntries).map SinkCall.appendEntries ∧
    (decodeAndDispatch walEnvCex [1] 0).1
      = ((([⟨1, [⟨1, [7]⟩]⟩, ⟨2, [⟨2, [8]⟩]⟩] : List RefEntries).map
          walEnvCex.appendEntries).filterMap id).head? := by
  have h := spec_c3_first_error_keeps_dispatching walEnvCex [1] 0
    ⟨[⟨1, "s1"⟩], [⟨1, [⟨1, [7]⟩]⟩, ⟨2, [⟨2, [8]⟩]⟩]⟩ rfl
  exact ⟨rfl, h.1, h.2.1⟩

/-- Auxiliary: the `maxDeleted` walk over the diff-set (a fold of `max`
starting at `-1`) yields either `-1` or an element of the set. -/
theorem fold_maxwalk_mem (s : Finset Int) :
    Finset.fold max (-1) id s ∈ insert (-1 : Int) s := by
  induction s using Finset.induction_on with
  | empty => exact Finset.mem_insert_self _ _
  | insert ha ih =>
    rw [Finset.fold_insert ha]
    rcases max_choice (id _) (Finset.fold max (-1) id _) with hc | hc
    · rw [hc]
      exact Finset.mem_insert_of_mem (Finset.mem_insert_self _ _)
    · rw [hc]
      rcases Finset.mem_insert.mp ih with h1 | h2
      · rw [h1]
        exact Finset.mem_insert_self _ _
      · exact Finset.mem_insert_of_mem (Finset.mem_insert_of_mem h2)

/-- Counterexample to claim C6 as stated: with a (reachable) seen-set holding
the negative id `-3` — a directory entry named `"-3"` parses via
`strconv.Atoi` — a sweep that finds the id gone emits `SeriesReset(-1)`, not
the maximum absent id `-3`: the `maxDeleted` walk starts at `-1`, which no
absent id beats. -/
theorem spec_c6_counterexample :
    readSegmentsAndEmitSeriesResets (.ok ["-3"]) (∅ : Diffset)
      = .ok (newDiffset [-3], []) ∧
    readSegmentsAndEmitSeriesResets (.ok []) (newDiffset [-3])
      = .ok ((∅ : Diffset), [.seriesReset (-1)]) ∧
    ((-3 : Int) ∈ diffsetDiff (newDiffset [-3]) (newDiffset []) ∧
      ∀ x ∈ diffsetDiff (newDiffset [-3]) (newDiffset []), x ≤ -3) ∧
    ((-1 : Int) ≠ -3) := by
  refine ⟨by decide, by decide, ⟨by decide, by decide⟩, by decide⟩

/-- Claim C6 (amended): a sweep whose directory scan succeeds replaces the
seen-set and, when at least one previously seen id is absent from the new
set, emits exactly one `SeriesReset` call; its argument is the maximum of
`-1` and the absent ids (an upper bound of the absent ids, itself absent or
`-1`), and whenever some absent id is `≥ -1` — in particular always for the
non-negative ids of real segment files — it is exactly the maximum absent
id.  If nothing previously seen is absent (the set is unchanged or only
gained ids), no call is made. -/
theorem spec_c6_series_reset_max (dirList : Except WErr (List String))
    (seen : Diffset) (segments : List Int)
    (hdir : readSegmentNumbers dirList = .ok segments) :
    (diffsetDiff seen (newDiffset segments) = (∅ : Diffset) →
      readSegmentsAndEmitSeriesResets dirList seen = .ok (newDiffset segments, [])) ∧
    (diffsetDiff seen (newDiffset segments) ≠ (∅ : Diffset) →
      ∃ m, readSegmentsAndEmitSeriesResets dirList seen
          = .ok (newDiffset segments, [.seriesReset m]) ∧
        (∀ x ∈ diffsetDiff seen (newDiffset segments), x ≤ m) ∧
        (m ∈ diffsetDiff seen (newDiffset segments) ∨ m = -1) ∧
        ((∃ x ∈ diffsetDiff seen (newDiffset segments), -1 ≤ x) →
          m ∈ diffsetDiff seen (newDiffset segments) ∧
          ∀ x ∈ diffsetDiff seen (newDiffset segments), x ≤ m)) := by
  have hrun : readSegmentsAndEmitSeriesResets dirList seen
      = (if diffsetDiff seen (newDiffset segments) = (∅ : Diffset)
          then .ok (newDiffset segments, [])
          else .ok (newDiffset segments,
            [SinkCall.seriesReset
              (Finset.fold max (-1) id (diffsetDiff seen (newDiffset segments)))])) := by
    unfold readSegmentsAndEmitSeriesResets
    rw [hdir]
  constructor
  · intro hempty
    rw [hrun, if_pos hempty]
  · intro hne
    have hbound : ∀ x ∈ diffsetDiff seen (newDiffset segments),
        x ≤ Finset.fold max (-1) id (diffsetDiff seen (newDiffset segments)) := by
      have hc := (Finset.fold_max_le
        (Finset.fold max (-1) id (diffsetDiff seen (newDiffset segments)))).mp (le_refl _)
      exact fun x hx => hc.2 x hx
    refine ⟨Finset.fold max (-1) id (diffsetDiff seen (newDiffset segments)),
      by rw [hrun, if_neg hne], hbound, ?_, ?_⟩
    · rcases Finset.mem_insert.mp
        (fold_maxwalk_mem (diffsetDiff seen (newDiffset segments))) with h1 | h2
      · exact .inr h1
      · exact .inl h2
    · intro ⟨x, hx, hxge⟩
      rcases Finset.mem_insert.mp
          (fold_maxwalk_mem (diffsetDiff seen (newDiffset segments))) with h1 | h2
      · have hxle := hbound x hx
        have hxeq : x = -1 := by
          rw [h1] at hxle
          omega
        constructor
        · rw [h1, ← hxeq]
          exact hx
        · exact hbound
      · exact ⟨h2, hbound⟩

/-- Witness for C6 (amended) at the spec's own example: segments {0,1,2}
were seen, the directory now holds only "2"; the sweep emits exactly
`SeriesReset 1`, the maximum of the absent ids {0,1}. -/
theorem spec_c6_witness :
    (readSegmentNumbers (.ok ["2"]) = .ok [2] ∧
      diffsetDiff (newDiffset [0, 1, 2]) (newDiffset [2]) ≠ (∅ : Diffset)) ∧
    ∃ m, readSegmentsAndEmitSeriesResets (.ok ["2"]) (newDiffset [0, 1, 2])
        = .ok (newDiffset [2], [.seriesReset m]) ∧
      (∀ x ∈ diffsetDiff (newDiffset [0, 1, 2]) (newDiffset [2]), x ≤ m) ∧
      (m ∈ diffsetDiff (newDiffset [0, 1, 2]) (newDiffset [2]) ∨ m = -1) ∧
      ((∃ x ∈ diffsetDiff (newDiffset [0, 1, 2]) (newDiffset [2]), -1 ≤ x) →
        m ∈ diffsetDiff (newDiffset [0, 1, 2]) (newDiffset [2]) ∧
        ∀ x ∈ diffsetDiff (newDiffset [0, 1, 2]) (newDiffset [2]), x ≤ m) :=
  ⟨⟨rfl, by decide⟩,
   (spec_c6_series_reset_max (.ok ["2"]) (newDiffset [0, 1, 2]) [2] rfl).2 (by decide)⟩

/-- Auxiliary: the first kept entry produced by the entry loop with a
previously kept entry `p` is some valid input entry adjusted by `bumpE`
against `p`. -/
theorem entryLoop_kept_head (f : Entry → Option VErr) (inc : Bool) :
    ∀ (es : List Entry) (p c : Entry) (tl : List Entry),
    (entryLoop f inc (some p) es).kept = c :: tl →
    ∃ e, f e = none ∧ c = bumpE inc (some p) e := by
  intro es
  induction es with
  | nil =>
    intro p c tl h
    exact List.noConfusion h
  | cons e rest ih =>
    intro p c tl h
    cases hf : f e with
    | some err =>
      apply ih p c tl
      simp only [entryLoop] at h
      rw [hf] at h
      exact h
    | none =>
      simp only [entryLoop] at h
      rw [hf] at h
      exact ⟨e, hf, (List.cons.inj h).1.symm⟩

/-- Auxiliary: the relation claim C5 asserts between a kept entry `p` and the
next kept entry, holds of `bumpE true (some p) e` for any valid input entry
`e`: the line is preserved; when the lines differ and `e`'s timestamp is not
already strictly greater the new timestamp is `p`'s plus one nanosecond; when
the lines differ and `e`'s timestamp is strictly greater it is kept; and when
the lines coincide the entry is unchanged. -/
theorem bumpE_rel (f : Entry → Option VErr) (p e : Entry) (hf : f e = none) :
    ∃ e0, f e0 = none ∧ (bumpE true (some p) e).line = e0.line ∧
      (((bumpE true (some p) e).line ≠ p.line ∧ e0.timestamp ≤ p.timestamp) →
        (bumpE true (some p) e).timestamp = p.timestamp + 1) ∧
      (((bumpE true (some p) e).line ≠ p.line ∧ p.timestamp < e0.timestamp) →
        (bumpE true (some p) e).timestamp = e0.timestamp) ∧
      ((bumpE true (some p) e).line = p.line → bumpE true (some p) e = e0) := by
  refine ⟨e, hf, ?_⟩
  by_cases hl : p.line = e.line
  · have hb : bumpE true (some p) e = e := by
      show (if true = true ∧ p.line ≠ e.line
          then { timestamp := maxT e.timestamp (p.timestamp + 1), line := e.line }
          else e) = e
      rw [if_neg (by simp [hl])]
    rw [hb]
    exact ⟨rfl, fun h => absurd hl.symm h.1, fun h => absurd hl.symm h.1, fun _ => rfl⟩
  · have hb : bumpE true (some p) e
        = { e with timestamp := maxT e.timestamp (p.timestamp + 1) } := by
      show (if true = true ∧ p.line ≠ e.line
          then { timestamp := maxT e.timestamp (p.timestamp + 1), line := e.line }
          else e) = { e with timestamp := maxT e.timestamp (p.timestamp + 1) }
      rw [if_pos (by simp [hl])]
    rw [hb]
    refine ⟨rfl, ?_, ?_, ?_⟩
    · intro ⟨hne, hle⟩
      show maxT e.timestamp (p.timestamp + 1) = p.timestamp + 1
      unfold maxT
      rw [if_pos (by omega)]
    · intro ⟨hne, hgt⟩
      show maxT e.timestamp (p.timestamp + 1) = e.timestamp
      unfold maxT
      rw [if_neg (by omega)]
    · intro hc
      exact absurd (hc : e.line = p.line) (fun h => hl h.symm)

/-- Claim C5: with duplicate-timestamp incrementing enabled, every pair of
consecutive kept ("valid") entries in the output of the validation entry loop
satisfies: the later entry keeps some valid input entry's line; when that
line differs from its predecessor's and the input timestamp is not already
strictly greater than the (stored) predecessor's, the stored timestamp is the
predecessor's plus one nanosecond; when the lines differ and the input
timestamp is strictly greater it is kept as is (together: the maximum of the
input timestamp and predecessor + 1ns); and consecutive entries with
byte-identical lines are stored entirely unchanged, even when the timestamps
are equal. -/
theorem spec_c5_duplicate_timestamp_bump (f : Entry → Option VErr)
    (es : List Entry) (prev : Option Entry) :
    List.Chain' (fun p c => ∃ e, f e = none ∧ c.line = e.line ∧
        ((c.line ≠ p.line ∧ e.timestamp ≤ p.timestamp) →
          c.timestamp = p.timestamp + 1) ∧
        ((c.line ≠ p.line ∧ p.timestamp < e.timestamp) →
          c.timestamp = e.timestamp) ∧
        (c.line = p.line → c = e))
      (entryLoop f true prev es).kept := by
  induction es generalizing prev with
  | nil => exact List.chain'_nil
  | cons e rest ih =>
    cases hf : f e with
    | some err =>
      have hk : (entryLoop f true prev (e :: rest)).kept
          = (entryLoop f true prev rest).kept := by
        simp only [entryLoop]
        rw [hf]
      rw [hk]
      exact ih prev
    | none =>
      have hk : (entryLoop f true prev (e :: rest)).kept
          = bumpE true prev e
              :: (entryLoop f true (some (bumpE true prev e)) rest).kept := by
        simp only [entryLoop]
        rw [hf]
      rw [hk]
      rw [List.chain'_cons']
      refine ⟨?_, ih (some (bumpE true prev e))⟩
      intro c hc
      cases hrest : (entryLoop f true (some (bumpE true prev e)) rest).kept with
      | nil =>
        rw [hrest] at hc
        exact absurd hc (by simp)
      | cons c0 tl =>
        rw [hrest] at hc
        have hc0 : c0 = c := by
          simpa using hc
        obtain ⟨e2, hf2, he2⟩ :=
          entryLoop_kept_head f true rest (bumpE true prev e) c0 tl hrest
        rw [← hc0, he2]
        exact bumpE_rel f (bumpE true prev e) e2 hf2

/-- Witness for C5 at a concrete input: four always-valid entries with
timestamps 5,5,5,4; the second gets bumped to 6 (same timestamp, different
line), the third is byte-identical to the second and is stored unchanged, the
fourth differs and is bumped to its predecessor's timestamp plus 1ns. -/
theorem spec_c5_witness :
    (entryLoop (fun _ => none) true none
        [⟨5, [1]⟩, ⟨5, [2]⟩, ⟨5, [2]⟩, ⟨4, [3]⟩]).kept
      = [⟨5, [1]⟩, ⟨6, [2]⟩, ⟨5, [2]⟩, ⟨6, [3]⟩] ∧
    List.Chain' (fun p c => ∃ e, (fun (_ : Entry) => (none : Option VErr)) e = none ∧
        c.line = e.line ∧
        ((c.line ≠ p.line ∧ e.timestamp ≤ p.timestamp) →
          c.timestamp = p.timestamp + 1) ∧
        ((c.line ≠ p.line ∧ p.timestamp < e.timestamp) →
          c.timestamp = e.timestamp) ∧
        (c.line = p.line → c = e))
      (entryLoop (fun _ => none) true none
        [⟨5, [1]⟩, ⟨5, [2]⟩, ⟨5, [2]⟩, ⟨4, [3]⟩]).kept :=
  ⟨rfl, spec_c5_duplicate_timestamp_bump (fun _ => none)
    [⟨5, [1]⟩, ⟨5, [2]⟩, ⟨5, [2]⟩, ⟨4, [3]⟩] none⟩

/-- Auxiliary: events addressed to stream `i` in a cons of event lists. -/
theorem evCount_cons (i : Nat) (e : Nat × Bool) (l : List (Nat × Bool)) :
    evCount i (e :: l) = (if e.1 = i then 1 else 0) + evCount i l := by
  by_cases h : e.1 = i <;> simp [evCount, List.filter_cons, h] <;> omega

/-- Auxiliary: effect of `List.set` on a mapped sum. -/
theorem sum_map_set {α : Type u} (g : α → Int) (l : List α) :
    ∀ (i : Nat) (x : α) (h : i < l.length),
    ((l.set i x).map g).sum = (l.map g).sum - g (l.get ⟨i, h⟩) + g x := by
  induction l with
  | nil =>
    intro i x h
    exact absurd h (by simp)
  | cons a t ih =>
    intro i x h
    cases i with
    | zero =>
      show (g x + (t.map g).sum) = (g a + (t.map g).sum) - g a + g x
      ring
    | succ n =>
      have hn : n < t.length := by
        simpa using h
      show (g a + ((t.set n x).map g).sum) = (g a + (t.map g).sum) - g (t.get ⟨n, hn⟩) + g x
      rw [ih n x hn]
      ring

/-- Auxiliary: effect of `List.set` on a filter count. -/
theorem filter_length_set {α : Type u} (p : α → Bool) (l : List α) :
    ∀ (i : Nat) (x : α) (h : i < l.length),
    ((l.set i x).filter p).length + (if p (l.get ⟨i, h⟩) then 1 else 0)
      = (l.filter p).length + (if p x then 1 else 0) := by
  induction l with
  | nil =>
    intro i x h
    exact absurd h (by simp)
  | cons a t ih =>
    intro i x h
    cases i with
    | zero =>
      show ((x :: t).filter p).length + (if p a then 1 else 0)
        = ((a :: t).filter p).length + (if p x then 1 else 0)
      by_cases hx : p x <;> by_cases ha : p a <;>
        simp [List.filter_cons, hx, ha]
    | succ n =>
      have hn : n < t.length := by
        simpa using h
      have hrec := ih n x hn
      show ((a :: t.set n x).filter p).length + (if p (t.get ⟨n, hn⟩) then 1 else 0)
        = ((a :: t).filter p).length + (if p x then 1 else 0)
      simp only [List.get_eq_getElem] at hrec ⊢
      by_cases ha : p a <;> simp [List.filter_cons, ha] <;> omega

/-- Auxiliary: the failure-overflow sum is non-negative. -/
theorem overflowSum_nonneg (l : List StreamCtr) : 0 ≤ overflowSum l := by
  unfold overflowSum
  induction l with
  | nil => simp
  | cons a t ih =>
    rw [List.map_cons, List.sum_cons]
    have h1 : (0 : Int) ≤ max (a.failed - a.maxFailures) 0 := le_max_right _ _
    omega

/-- Auxiliary: a positive failure-overflow sum exhibits a tracker whose
failure counter exceeds its budget. -/
theorem overflowSum_pos (l : List StreamCtr) (h : 0 < overflowSum l) :
    ∃ t ∈ l, t.maxFailures < t.failed := by
  induction l with
  | nil =>
    exact absurd h (by simp [overflowSum])
  | cons a t ih =>
    rw [overflowSum, List.map_cons, List.sum_cons] at h
    by_cases ha : a.maxFailures < a.failed
    · exact ⟨a, List.mem_cons_self a t, ha⟩
    · have hz : max (a.failed - a.maxFailures) 0 = 0 := by
        omega
      rw [hz] at h
      obtain ⟨x, hx, hxlt⟩ := ih (by simpa [overflowSum] using h)
      exact ⟨x, List.mem_cons_of_mem a hx, hxlt⟩

/-- Auxiliary: a zero failure-overflow sum bounds every tracker's failure
counter by its budget. -/
theorem overflowSum_zero (l : List StreamCtr) (h : overflowSum l = 0) :
    ∀ t ∈ l, t.failed ≤ t.maxFailures := by
  induction l with
  | nil =>
    intro t ht
    exact absurd ht (by simp)
  | cons a rest ih =>
    rw [overflowSum, List.map_cons, List.sum_cons] at h
    have h1 : (0 : Int) ≤ max (a.failed - a.maxFailures) 0 := le_max_right _ _
    have h2 : 0 ≤ overflowSum rest := overflowSum_nonneg rest
    rw [overflowSum] at h2
    intro t ht
    rcases List.mem_cons.mp ht with rfl | htr
    · omega
    · exact ih (by unfold overflowSum; omega) t htr

/-- Auxiliary: a list element failing the filter predicate makes the filter
strictly shorter than the list. -/
theorem filter_length_lt {α : Type u} (p : α → Bool) (l : List α)
    (i : Nat) (h : i < l.length) (hp : p (l.get ⟨i, h⟩) = false) :
    (l.filter p).length < l.length := by
  induction l generalizing i with
  | nil => exact absurd h (by simp)
  | cons a t ih =>
    cases i with
    | zero =>
      have hpa : p a = false := hp
      rw [List.filter_cons, hpa]
      have := List.length_filter_le p t
      simp
      omega
    | succ n =>
      have hn : n < t.length := by simpa using h
      have hrec := ih n hn hp
      rw [List.filter_cons]
      by_cases ha : p a <;> simp [ha] <;> omega

/-- Auxiliary: an event addressed outside the tracker list leaves the state
unchanged. -/
theorem sendSamplesStep_out (st : PushState) (i0 : Nat) (b : Bool)
    (hget : st.trackers[i0]? = none) :
    sendSamplesStep st (i0, b) = st := by
  unfold sendSamplesStep
  rw [hget]

/-- Auxiliary: a success event that does not hit `minSuccess` exactly only
bumps the stream's success counter. -/
theorem sendSamplesStep_succ_noq (st : PushState) (i0 : Nat) (t : StreamCtr)
    (hget : st.trackers[i0]? = some t) (hq : ¬(t.succeeded + 1 = t.minSuccess)) :
    sendSamplesStep st (i0, true)
      = { st with trackers :=
            st.trackers.set i0 ⟨t.minSuccess, t.maxFailures, t.succeeded + 1, t.failed⟩ } := by
  unfold sendSamplesStep
  rw [hget]
  show (if t.succeeded + 1 ≠ t.minSuccess then _ else _) = _
  rw [if_pos hq]

/-- Auxiliary: a success event that hits `minSuccess` exactly and brings the
pending count to zero also fires the `done` signal. -/
theorem sendSamplesStep_succ_q0 (st : PushState) (i0 : Nat) (t : StreamCtr)
    (hget : st.trackers[i0]? = some t) (hq : t.succeeded + 1 = t.minSuccess)
    (hp : st.samplesPending - 1 = 0) :
    sendSamplesStep st (i0, true)
      = { st with
          trackers :=
            st.trackers.set i0 ⟨t.minSuccess, t.maxFailures, t.succeeded + 1, t.failed⟩,
          samplesPending := st.samplesPending - 1,
          doneSignals := st.doneSignals + 1 } := by
  unfold sendSamplesStep
  rw [hget]
  show (if t.succeeded + 1 ≠ t.minSuccess then _ else _) = _
  rw [if_neg (by omega)]
  show (if st.samplesPending - 1 = 0 then _ else _) = _
  rw [if_pos hp]

/-- Auxiliary: a success event that hits `minSuccess` exactly while pending
streams remain decrements the pending count without signalling. -/
theorem sendSamplesStep_succ_qp (st : PushState) (i0 : Nat) (t : StreamCtr)
    (hget : st.trackers[i0]? = some t) (hq : t.succeeded + 1 = t.minSuccess)
    (hp : ¬(st.samplesPending - 1 = 0)) :
    sendSamplesStep st (i0, true)
      = { st with
          trackers :=
            st.trackers.set i0 ⟨t.minSuccess, t.maxFailures, t.succeeded + 1, t.failed⟩,
          samplesPending := st.samplesPending - 1 } := by
  unfold sendSamplesStep
  rw [hget]
  show (if t.succeeded + 1 ≠ t.minSuccess then _ else _) = _
  rw [if_neg (by omega)]
  show (if st.samplesPending - 1 = 0 then _ else _) = _
  rw [if_neg hp]

/-- Auxiliary: a failure event within the failure budget only bumps the
stream's failure counter. -/
theorem sendSamplesStep_fail_le (st : PushState) (i0 : Nat) (t : StreamCtr)
    (hget : st.trackers[i0]? = some t) (hf : t.failed + 1 ≤ t.maxFailures) :
    sendSamplesStep st (i0, false)
      = { st with trackers :=
            st.trackers.set i0 ⟨t.minSuccess, t.maxFailures, t.succeeded, t.failed + 1⟩ } := by
  unfold sendSamplesStep
  rw [hget]
  show (if t.failed + 1 ≤ t.maxFailures then _ else _) = _
  rw [if_pos hf]

/-- Auxiliary: the first failure event beyond any stream's budget fires the
`err` signal. -/
theorem sendSamplesStep_fail_first (st : PushState) (i0 : Nat) (t : StreamCtr)
    (hget : st.trackers[i0]? = some t) (hf : ¬(t.failed + 1 ≤ t.maxFailures))
    (hone : st.samplesFailed + 1 = 1) :
    sendSamplesStep st (i0, false)
      = { st with
          trackers :=
            st.trackers.set i0 ⟨t.minSuccess, t.maxFailures, t.succeeded, t.failed + 1⟩,
          samplesFailed := st.samplesFailed + 1,
          errSignals := st.errSignals + 1 } := by
  unfold sendSamplesStep
  rw [hget]
  show (if t.failed + 1 ≤ t.maxFailures then _ else _) = _
  rw [if_neg hf]
  show (if st.samplesFailed + 1 = 1 then _ else _) = _
  rw [if_pos hone]

/-- Auxiliary: a failure event beyond some stream's budget after the first
one only counts, without signalling again. -/
theorem sendSamplesStep_fail_later (st : PushState) (i0 : Nat) (t : StreamCtr)
    (hget : st.trackers[i0]? = some t) (hf : ¬(t.failed + 1 ≤ t.maxFailures))
    (hone : ¬(st.samplesFailed + 1 = 1)) :
    sendSamplesStep st (i0, false)
      = { st with
          trackers :=
            st.trackers.set i0 ⟨t.minSuccess, t.maxFailures, t.succeeded, t.failed + 1⟩,
          samplesFailed := st.samplesFailed + 1 } := by
  unfold sendSamplesStep
  rw [hget]
  show (if t.failed + 1 ≤ t.maxFailures then _ else _) = _
  rw [if_neg hf]
  show (if st.samplesFailed + 1 = 1 then _ else _) = _
  rw [if_neg hone]

/-- Auxiliary: consuming one event for stream `i0` while bumping exactly one
of that stream's counters preserves the per-tracker clause. -/
theorem TrackClause_set (ts : List (Int × Int)) (evs rest : List (Nat × Bool))
    (i0 : Nat) (b : Bool) (trackers : List StreamCtr) (t t' : StreamCtr)
    (hc : TrackClause ts evs ((i0, b) :: rest) trackers)
    (hi : i0 < trackers.length)
    (htget : trackers.get ⟨i0, hi⟩ = t)
    (hms : t'.minSuccess = t.minSuccess) (hmf : t'.maxFailures = t.maxFailures)
    (hsum : t'.succeeded + t'.failed = t.succeeded + t.failed + 1)
    (hs0 : 0 ≤ t'.succeeded) (hf0 : 0 ≤ t'.failed) :
    TrackClause ts evs rest (trackers.set i0 t') := by
  intro i h h2
  have hlen' : i < trackers.length := by
    simpa using h
  by_cases hii : i = i0
  · subst hii
    have hgs : (trackers.set i t').get ⟨i, h⟩ = t' := List.get_set_eq h
    obtain ⟨a1, a2, a3, a4, a5⟩ := hc i hlen' h2
    rw [htget] at a1 a2 a3 a4 a5
    have hcnt : evCount i (((i, b) : Nat × Bool) :: rest) = 1 + evCount i rest := by
      rw [evCount_cons, if_pos rfl]
    rw [hcnt] at a5
    rw [hgs]
    refine ⟨hms.trans a1, hmf.trans a2, hs0, hf0, ?_⟩
    push_cast at a5 ⊢
    omega
  · have hgs : (trackers.set i0 t').get ⟨i, h⟩ = trackers.get ⟨i, hlen'⟩ :=
      List.get_set_ne (fun hcc => hii hcc.symm) h
    obtain ⟨a1, a2, a3, a4, a5⟩ := hc i hlen' h2
    have hcnt : evCount i (((i0, b) : Nat × Bool) :: rest) = evCount i rest := by
      rw [evCount_cons, if_neg (fun hcc => hii hcc.symm)]
      omega
    rw [hcnt] at a5
    rw [hgs]
    exact ⟨a1, a2, a3, a4, a5⟩

/-- Auxiliary: one `sendSamples` event preserves the quorum invariant while
consuming the event from the pending list. -/
theorem quorumInv_step (ts : List (Int × Int)) (evs rest : List (Nat × Bool))
    (ev : Nat × Bool) (st : PushState)
    (hInv : QuorumInv ts evs (ev :: rest) st) :
    QuorumInv ts evs rest (sendSamplesStep st ev) := by
  obtain ⟨i0, b⟩ := ev
  obtain ⟨hlen, htr, hsf, herr, hpend, hdone⟩ := hInv
  cases hget : st.trackers[i0]? with
  | none =>
    rw [sendSamplesStep_out st i0 b hget]
    have hout : st.trackers.length ≤ i0 := List.getElem?_eq_none_iff.mp hget
    refine ⟨hlen, ?_, hsf, herr, hpend, hdone⟩
    intro i h h2
    obtain ⟨a1, a2, a3, a4, a5⟩ := htr i h h2
    have hcnt : evCount i (((i0, b) : Nat × Bool) :: rest) = evCount i rest := by
      rw [evCount_cons, if_neg (by omega)]
      omega
    rw [hcnt] at a5
    exact ⟨a1, a2, a3, a4, a5⟩
  | some t =>
    obtain ⟨hi', hti⟩ := List.getElem?_eq_some_iff.mp hget
    have htget : st.trackers.get ⟨i0, hi'⟩ = t := by
      simpa [List.get_eq_getElem] using hti
    have hi0ts : i0 < ts.length := hlen ▸ hi'
    obtain ⟨b1, b2, b3, b4, b5⟩ := htr i0 hi' hi0ts
    rw [htget] at b1 b2 b3 b4 b5
    cases b with
    | true =>
      by_cases hq : t.succeeded + 1 = t.minSuccess
      · -- quorum hit for this stream: pending decremented
        have htc : TrackClause ts evs rest
            (st.trackers.set i0 ⟨t.minSuccess, t.maxFailures, t.succeeded + 1, t.failed⟩) :=
          TrackClause_set ts evs rest i0 true st.trackers t _ htr hi' htget
            rfl rfl (by show t.succeeded + 1 + t.failed = t.succeeded + t.failed + 1; ring)
            (by show (0 : Int) ≤ t.succeeded + 1; omega) b4
        have hover : overflowSum
            (st.trackers.set i0 ⟨t.minSuccess, t.maxFailures, t.succeeded + 1, t.failed⟩)
            = overflowSum st.trackers := by
          unfold overflowSum
          rw [sum_map_set _ _ i0 _ hi', htget]
          show overflowSum st.trackers - max (t.failed - t.maxFailures) 0
              + max (t.failed - t.maxFailures) 0 = overflowSum st.trackers
          omega
        have hbt : reachedB t = false := by
          unfold reachedB
          exact decide_eq_false (by omega)
        have hbt' : reachedB ⟨t.minSuccess, t.maxFailures, t.succeeded + 1, t.failed⟩
            = true := by
          unfold reachedB
          exact decide_eq_true (by
            show t.minSuccess ≤ t.succeeded + 1 ∧ 1 ≤ t.minSuccess
            constructor <;> omega)
        have hreach : reachedCount
            (st.trackers.set i0 ⟨t.minSuccess, t.maxFailures, t.succeeded + 1, t.failed⟩)
            = reachedCount st.trackers + 1 := by
          unfold reachedCount
          have hflt := filter_length_set reachedB st.trackers i0
            ⟨t.minSuccess, t.maxFailures, t.succeeded + 1, t.failed⟩ hi'
          rw [htget, hbt, hbt'] at hflt
          simpa using hflt
        have hrlt : reachedCount st.trackers < st.trackers.length := by
          unfold reachedCount
          exact filter_length_lt reachedB st.trackers i0 hi' (by rw [htget]; exact hbt)
        by_cases hp : st.samplesPending - 1 = 0
        · rw [sendSamplesStep_succ_q0 st i0 t hget hq hp]
          have hLr : reachedCount st.trackers + 1 = ts.length := by
            omega
          refine ⟨by simpa using hlen, htc, hsf.trans hover.symm, herr, ?_, ?_⟩
          · show st.samplesPending - 1 = (ts.length : Int) - _
            rw [hreach]
            push_cast
            omega
          · show st.doneSignals + 1 = _
            rw [hreach]
            rw [if_pos ⟨hLr, by omega⟩]
            have hd0 : st.doneSignals = 0 := by
              rw [hdone, if_neg]
              intro ⟨hc1, _⟩
              omega
            omega
        · rw [sendSamplesStep_succ_qp st i0 t hget hq hp]
          refine ⟨by simpa using hlen, htc, hsf.trans hover.symm, herr, ?_, ?_⟩
          · show st.samplesPending - 1 = (ts.length : Int) - _
            rw [hreach]
            push_cast
            omega
          · show st.doneSignals = _
            rw [hreach]
            have hrne : ¬(reachedCount st.trackers + 1 = ts.length ∧ ts.length ≠ 0) := by
              intro ⟨hc1, _⟩
              rw [hpend] at hp
              omega
            rw [if_neg hrne]
            rw [hdone, if_neg]
            intro ⟨hc1, _⟩
            omega
      · -- plain success below / beyond quorum: only the counter moves
        rw [sendSamplesStep_succ_noq st i0 t hget hq]
        have htc : TrackClause ts evs rest
            (st.trackers.set i0 ⟨t.minSuccess, t.maxFailures, t.succeeded + 1, t.failed⟩) :=
          TrackClause_set ts evs rest i0 true st.trackers t _ htr hi' htget
            rfl rfl (by show t.succeeded + 1 + t.failed = t.succeeded + t.failed + 1; ring)
            (by show (0 : Int) ≤ t.succeeded + 1; omega) b4
        have hover : overflowSum
            (st.trackers.set i0 ⟨t.minSuccess, t.maxFailures, t.succeeded + 1, t.failed⟩)
            = overflowSum st.trackers := by
          unfold overflowSum
          rw [sum_map_set _ _ i0 _ hi', htget]
          show overflowSum st.trackers - max (t.failed - t.maxFailures) 0
              + max (t.failed - t.maxFailures) 0 = overflowSum st.trackers
          omega
        have hbb : reachedB ⟨t.minSuccess, t.maxFailures, t.succeeded + 1, t.failed⟩
            = reachedB t := by
          unfold reachedB
          exact decide_eq_decide.mpr (by
            show (t.minSuccess ≤ t.succeeded + 1 ∧ 1 ≤ t.minSuccess)
              ↔ (t.minSuccess ≤ t.succeeded ∧ 1 ≤ t.minSuccess)
            constructor
            · intro hx
              exact ⟨by omega, hx.2⟩
            · intro hx
              exact ⟨by omega, hx.2⟩)
        have hreach : reachedCount
            (st.trackers.set i0 ⟨t.minSuccess, t.maxFailures, t.succeeded + 1, t.failed⟩)
            = reachedCount st.trackers := by
          unfold reachedCount
          have hflt := filter_length_set reachedB st.trackers i0
            ⟨t.minSuccess, t.maxFailures, t.succeeded + 1, t.failed⟩ hi'
          rw [htget, hbb] at hflt
          omega
        refine ⟨by simpa using hlen, htc, hsf.trans hover.symm, herr, ?_, ?_⟩
        · show st.samplesPending = (ts.length : Int) - _
          rw [hreach]
          exact hpend
        · show st.doneSignals = _
          rw [hreach]
          exact hdone
    | false =>
      have htc : TrackClause ts evs rest
          (st.trackers.set i0 ⟨t.minSuccess, t.maxFailures, t.succeeded, t.failed + 1⟩) :=
        TrackClause_set ts evs rest i0 false st.trackers t _ htr hi' htget
          rfl rfl (by show t.succeeded + (t.failed + 1) = t.succeeded + t.failed + 1; ring)
          b3 (by show (0 : Int) ≤ t.failed + 1; omega)
      have hbb : reachedB ⟨t.minSuccess, t.maxFailures, t.succeeded, t.failed + 1⟩
          = reachedB t := rfl
      have hreach : reachedCount
          (st.trackers.set i0 ⟨t.minSuccess, t.maxFailures, t.succeeded, t.failed + 1⟩)
          = reachedCount st.trackers := by
        unfold reachedCount
        have hflt := filter_length_set reachedB st.trackers i0
          ⟨t.minSuccess, t.maxFailures, t.succeeded, t.failed + 1⟩ hi'
        rw [htget, hbb] at hflt
        omega
      by_cases hf : t.failed + 1 ≤ t.maxFailures
      · rw [sendSamplesStep_fail_le st i0 t hget hf]
        have hover : overflowSum
            (st.trackers.set i0 ⟨t.minSuccess, t.maxFailures, t.succeeded, t.failed + 1⟩)
            = overflowSum st.trackers := by
          unfold overflowSum
          rw [sum_map_set _ _ i0 _ hi', htget]
          have h1 : max (t.failed + 1 - t.maxFailures) 0 = 0 := by
            omega
          have h2 : max (t.failed - t.maxFailures) 0 = 0 := by
            omega
          show overflowSum st.trackers - max (t.failed - t.maxFailures) 0
              + max (t.failed + 1 - t.maxFailures) 0 = overflowSum st.trackers
          omega
        refine ⟨by simpa using hlen, htc, hsf.trans hover.symm, herr, ?_, ?_⟩
        · show st.samplesPending = (ts.length : Int) - _
          rw [hreach]
          exact hpend
        · show st.doneSignals = _
          rw [hreach]
          exact hdone
      · have hover : overflowSum
            (st.trackers.set i0 ⟨t.minSuccess, t.maxFailures, t.succeeded, t.failed + 1⟩)
            = overflowSum st.trackers + 1 := by
          unfold overflowSum
          rw [sum_map_set _ _ i0 _ hi', htget]
          have h1 : max (t.failed + 1 - t.maxFailures) 0 = t.failed + 1 - t.maxFailures := by
            omega
          have h2 : max (t.failed - t.maxFailures) 0 = t.failed - t.maxFailures := by
            omega
          show overflowSum st.trackers - max (t.failed - t.maxFailures) 0
              + max (t.failed + 1 - t.maxFailures) 0 = overflowSum st.trackers + 1
          omega
        have hsf0 : 0 ≤ st.samplesFailed := by
          rw [hsf]
          exact overflowSum_nonneg st.trackers
        by_cases hone : st.samplesFailed + 1 = 1
        · rw [sendSamplesStep_fail_first st i0 t hget hf hone]
          refine ⟨by simpa using hlen, htc, ?_, ?_, ?_, ?_⟩
          · show st.samplesFailed + 1 = _
            rw [hover, hsf]
          · show st.errSignals + 1 = if (1 : Int) ≤ st.samplesFailed + 1 then 1 else 0
            rw [if_pos (by omega)]
            have he0 : st.errSignals = 0 := by
              rw [herr, if_neg (by omega)]
            omega
          · show st.samplesPending = (ts.length : Int) - _
            rw [hreach]
            exact hpend
          · show st.doneSignals = _
            rw [hreach]
            exact hdone
        · rw [sendSamplesStep_fail_later st i0 t hget hf hone]
          refine ⟨by simpa using hlen, htc, ?_, ?_, ?_, ?_⟩
          · show st.samplesFailed + 1 = _
            rw [hover, hsf]
          · show st.errSignals = if (1 : Int) ≤ st.samplesFailed + 1 then 1 else 0
            rw [if_pos (by omega)]
            rw [herr, if_pos (by omega)]
          · show st.samplesPending = (ts.length : Int) - _
            rw [hreach]
            exact hpend
          · show st.doneSignals = _
            rw [hreach]
            exact hdone

/-- Auxiliary: running all remaining events preserves the quorum invariant
down to an empty pending list. -/
theorem quorumInv_run (ts : List (Int × Int)) (evs : List (Nat × Bool)) :
    ∀ (rest : List (Nat × Bool)) (st : PushState),
    QuorumInv ts evs rest st → QuorumInv ts evs [] (runEvents st rest) := by
  intro rest
  induction rest with
  | nil =>
    intro st h
    exact h
  | cons e r ih =>
    intro st h
    exact ih (sendSamplesStep st e) (quorumInv_step ts evs r e st h)

/-- Auxiliary: the failure-overflow sum of freshly initialized trackers is
zero when every failure budget is non-negative. -/
theorem overflowSum_init (ts : List (Int × Int)) (hmf : ∀ p ∈ ts, 0 ≤ p.2) :
    overflowSum (ts.map fun p => (⟨p.1, p.2, 0, 0⟩ : StreamCtr)) = 0 := by
  unfold overflowSum
  induction ts with
  | nil => rfl
  | cons p rest ih =>
    have hp2 : 0 ≤ p.2 := hmf p (List.mem_cons_self p rest)
    have hrest := ih (fun q hq => hmf q (List.mem_cons_of_mem p hq))
    rw [List.map_cons, List.map_cons, List.sum_cons]
    have hterm : max ((0 : Int) - p.2) 0 = 0 := by
      omega
    show max ((0 : Int) - p.2) 0
        + ((rest.map fun p => (⟨p.1, p.2, 0, 0⟩ : StreamCtr)).map
            fun t => max (t.failed - t.maxFailures) 0).sum = 0
    rw [hterm]
    simpa using hrest

/-- Auxiliary: the freshly initialized push state satisfies the quorum
invariant with the whole event list still pending, provided the failure
budgets are non-negative (as `ring.Get`'s `MaxErrors` always is). -/
theorem quorumInv_init (ts : List (Int × Int)) (evs : List (Nat × Bool))
    (hmf : ∀ p ∈ ts, 0 ≤ p.2) :
    QuorumInv ts evs evs (initPushState ts) := by
  have htr0 : (initPushState ts).trackers
      = ts.map fun p => (⟨p.1, p.2, 0, 0⟩ : StreamCtr) := rfl
  have hover0 : overflowSum (ts.map fun p => (⟨p.1, p.2, 0, 0⟩ : StreamCtr)) = 0 :=
    overflowSum_init ts hmf
  have hrB : ∀ p : Int × Int, reachedB ⟨p.1, p.2, 0, 0⟩ = false := by
    intro p
    unfold reachedB
    exact decide_eq_false (by
      show ¬(p.1 ≤ 0 ∧ 1 ≤ p.1)
      omega)
  have hreach0 : reachedCount (ts.map fun p => (⟨p.1, p.2, 0, 0⟩ : StreamCtr)) = 0 := by
    unfold reachedCount
    rw [List.filter_eq_nil_iff.mpr ?hall]
    · rfl
    case hall =>
      intro x hx
      obtain ⟨p, hp, hpx⟩ := List.mem_map.mp hx
      rw [← hpx]
      simp [hrB p]
  refine ⟨by simp [initPushState], ?_, ?_, ?_, ?_, ?_⟩
  · intro i h h2
    have hget : (initPushState ts).trackers.get ⟨i, h⟩
        = ⟨(ts.get ⟨i, h2⟩).1, (ts.get ⟨i, h2⟩).2, 0, 0⟩ := by
      simp [initPushState, List.get_eq_getElem]
    rw [hget]
    refine ⟨rfl, rfl, le_refl 0, le_refl 0, ?_⟩
    show (0 : Int) + 0 + (evCount i evs : Int) = (evCount i evs : Int)
    ring
  · show (initPushState ts).samplesFailed = overflowSum (initPushState ts).trackers
    rw [htr0, hover0]
    rfl
  · show (initPushState ts).errSignals
      = if (1 : Int) ≤ (initPushState ts).samplesFailed then 1 else 0
    rw [if_neg (by show ¬((1 : Int) ≤ 0); omega)]
    rfl
  · show (initPushState ts).samplesPending
      = (ts.length : Int) - (reachedCount (initPushState ts).trackers : Int)
    rw [htr0, hreach0]
    show ((ts.length : Int)) = (ts.length : Int) - ((0 : Nat) : Int)
    push_cast
    ring
  · show (initPushState ts).doneSignals
      = if reachedCount (initPushState ts).trackers = ts.length ∧ ts.length ≠ 0
        then 1 else 0
    rw [htr0, hreach0]
    by_cases hl : ts.length = 0
    · rw [if_neg (fun hc => hc.2 hl)]
      rfl
    · rw [if_neg (fun hc => hl hc.1.symm)]
      rfl

/-- Claim C1: for every Push, the tracker's `done` and `err` signals are
mutually exclusive and each fires at most once.  Events are the linearized
per-(replica, stream) completions; the hypotheses say the ring reported a
non-negative failure tolerance and each stream receives at most
`minSuccess + maxFailures` events (one per replica).  Then: `done` fires at
most once, `err` fires at most once, never both — because a stream whose
failures exceed `maxFailures` can no longer reach `minSuccess` successes, so
the pending count never reaches zero — and under full delivery (every
replica of every stream responds, with `1 ≤ minSuccess` and at least one
stream) exactly one of the two fires. -/
theorem spec_c1_done_err_exclusive (ts : List (Int × Int)) (evs : List (Nat × Bool))
    (hmf : ∀ p ∈ ts, 0 ≤ p.2)
    (hbudget : ∀ i, (h : i < ts.length) →
      (evCount i evs : Int) ≤ (ts.get ⟨i, h⟩).1 + (ts.get ⟨i, h⟩).2) :
    (runEvents (initPushState ts) evs).doneSignals ≤ 1 ∧
    (runEvents (initPushState ts) evs).errSignals ≤ 1 ∧
    ¬((runEvents (initPushState ts) evs).doneSignals = 1 ∧
      (runEvents (initPushState ts) evs).errSignals = 1) ∧
    ((ts ≠ [] ∧ ∀ i, (h : i < ts.length) → 1 ≤ (ts.get ⟨i, h⟩).1 ∧
        (evCount i evs : Int) = (ts.get ⟨i, h⟩).1 + (ts.get ⟨i, h⟩).2) →
      (runEvents (initPushState ts) evs).doneSignals
        + (runEvents (initPushState ts) evs).errSignals = 1) := by
  obtain ⟨hlen, htr, hsf, herr, hpend, hdone⟩ :=
    quorumInv_run ts evs evs (initPushState ts) (quorumInv_init ts evs hmf)
  have hsf0 : 0 ≤ (runEvents (initPushState ts) evs).samplesFailed := by
    rw [hsf]
    exact overflowSum_nonneg _
  -- a positive overflow pins some stream above its failure budget, below its
  -- success quorum, so the pending count cannot have reached zero
  have hdone_of_pos : 0 < (runEvents (initPushState ts) evs).samplesFailed →
      (runEvents (initPushState ts) evs).doneSignals = 0 := by
    intro hpos
    obtain ⟨x, hx, hxover⟩ := overflowSum_pos _ (by rw [← hsf]; exact hpos)
    obtain ⟨⟨i, hi⟩, hgx⟩ := List.mem_iff_get.mp hx
    have hits : i < ts.length := hlen ▸ hi
    obtain ⟨a1, a2, a3, a4, a5⟩ := htr i hi hits
    have hb := hbudget i hits
    have hxreach : reachedB ((runEvents (initPushState ts) evs).trackers.get ⟨i, hi⟩)
        = false := by
      unfold reachedB
      refine decide_eq_false ?_
      intro ⟨hc1, hc2⟩
      rw [hgx] at hc1
      rw [hgx] at a1 a2 a3 a4 a5
      have hcnt0 : (evCount i ([] : List (Nat × Bool)) : Int) = 0 := by
        rfl
      rw [hcnt0] at a5
      omega
    have hlt : reachedCount (runEvents (initPushState ts) evs).trackers
        < (runEvents (initPushState ts) evs).trackers.length :=
      filter_length_lt reachedB _ i hi hxreach
    rw [hdone, if_neg]
    intro ⟨hc1, _⟩
    omega
  refine ⟨?_, ?_, ?_, ?_⟩
  · rw [hdone]
    split <;> omega
  · rw [herr]
    split <;> omega
  · intro ⟨hd1, he1⟩
    have hpos : 0 < (runEvents (initPushState ts) evs).samplesFailed := by
      by_contra hc
      rw [herr, if_neg (by omega)] at he1
      exact absurd he1 (by omega)
    rw [hdone_of_pos hpos] at hd1
    exact absurd hd1 (by omega)
  · intro ⟨hne, hfull⟩
    by_cases hz : (runEvents (initPushState ts) evs).samplesFailed = 0
    · -- no stream exceeded its budget: all reached quorum, `done` fired
      have hall : ∀ x ∈ (runEvents (initPushState ts) evs).trackers,
          reachedB x = true := by
        intro x hx
        obtain ⟨⟨i, hi⟩, hgx⟩ := List.mem_iff_get.mp hx
        have hits : i < ts.length := hlen ▸ hi
        obtain ⟨a1, a2, a3, a4, a5⟩ := htr i hi hits
        obtain ⟨hms1, hcnteq⟩ := hfull i hits
        have hxle : x.failed ≤ x.maxFailures := by
          have := overflowSum_zero _ (by rw [← hsf]; exact hz) x hx
          exact this
        unfold reachedB
        refine decide_eq_true ?_
        rw [hgx] at a1 a2 a3 a4 a5
        have hcnt0 : (evCount i ([] : List (Nat × Bool)) : Int) = 0 := by
          rfl
        rw [hcnt0] at a5
        constructor <;> omega
      have hreachall : reachedCount (runEvents (initPushState ts) evs).trackers
          = ts.length := by
        unfold reachedCount
        rw [List.filter_eq_self.mpr hall]
        exact hlen
      have hlne : ts.length ≠ 0 := by
        intro hc
        exact hne (List.length_eq_zero.mp hc)
      rw [hdone, herr, if_pos ⟨hreachall, hlne⟩, if_neg (by omega)]
    · have hpos : 0 < (runEvents (initPushState ts) evs).samplesFailed := by
        omega
      rw [hdone_of_pos hpos, herr, if_pos (by omega)]

/-- Witness for C1 at a concrete input: one stream with `minSuccess = 1`,
`maxFailures = 1` receiving one failure and one success (full delivery by a
replica set of size 2); exactly the `done` signal fires, once. -/
theorem spec_c1_witness :
    ((∀ p ∈ [((1 : Int), (1 : Int))], 0 ≤ p.2) ∧
     (∀ i, (h : i < [((1 : Int), (1 : Int))].length) →
        (evCount i [(0, false), (0, true)] : Int)
          ≤ ([((1 : Int), (1 : Int))].get ⟨i, h⟩).1
            + ([((1 : Int), (1 : Int))].get ⟨i, h⟩).2)) ∧
    (runEvents (initPushState [((1 : Int), (1 : Int))]) [(0, false), (0, true)]).doneSignals ≤ 1 ∧
    (runEvents (initPushState [((1 : Int), (1 : Int))]) [(0, false), (0, true)]).errSignals ≤ 1 ∧
    ¬((runEvents (initPushState [((1 : Int), (1 : Int))]) [(0, false), (0, true)]).doneSignals = 1 ∧
      (runEvents (initPushState [((1 : Int), (1 : Int))]) [(0, false), (0, true)]).errSignals = 1) ∧
    (([((1 : Int), (1 : Int))] ≠ [] ∧
        ∀ i, (h : i < [((1 : Int), (1 : Int))].length) →
          1 ≤ ([((1 : Int), (1 : Int))].get ⟨i, h⟩).1 ∧
          (evCount i [(0, false), (0, true)] : Int)
            = ([((1 : Int), (1 : Int))].get ⟨i, h⟩).1
              + ([((1 : Int), (1 : Int))].get ⟨i, h⟩).2) →
      (runEvents (initPushState [((1 : Int), (1 : Int))]) [(0, false), (0, true)]).doneSignals
        + (runEvents (initPushState [((1 : Int), (1 : Int))]) [(0, false), (0, true)]).errSignals = 1) :=
  ⟨⟨by decide, by decide⟩,
   spec_c1_done_err_exclusive [((1 : Int), (1 : Int))] [(0, false), (0, true)]
     (by decide) (by decide)⟩

end Loki
